import Mathlib

/-! Alternating disks (`disks.hpp`): embedding and verification.

A shallow embedding of `disks.hpp`: the `disk_state` row of coloured disks,
its accessors and predicates, the result record `sorted_disks`, and the two
sorting procedures `sort_left_to_right` and `sort_lawnmower`.

Conventions of the embedding.

* `std::vector<disk_color>` is a `List disk_color`.
* A member function that executes `assert` returns an `Option`: `none` is a
  failed assertion.  The sorters thread this `Option` through every `get` and
  `swap` they issue, so a `some` result certifies that all of them were in
  range.
* Machine integers are natural numbers with an explicit `% 2 ^ w` where the
  width is observable.  The constructor's product `light_count * 2` is
  taken modulo `2 ^ 64` (`size_t`).  The swap counter `int disk_swaps` is kept
  as its residue modulo `2 ^ 32`, the bit pattern of the 32-bit `int`: `++`
  wraps, and the conversion to the `unsigned` field of `sorted_disks` leaves
  the residue as it is.  Indices and loop counters never exceed
  `total_count()` and are plain natural numbers.
* A counted `for` loop is a monadic fold over the list of values its counter
  takes; `total_count()` is re-read by the source at every test, and is
  unchanged by `swap`, so the list is computed from the row at loop entry.
* A loop whose exit is not a plain count (the constructor's `i += 2` loop, the
  `while` loop of `is_alternating()`) is a recursion with an explicit bound on
  its number of tests; the bound passed by the caller is proved sufficient.
* `std::string` is a list of characters; `to_string()` wraps the characters
  written to the stream into a `String`.
-/

/-! ## Data model -/

/-- State of one disk, either light or dark: `enum disk_color`. -/
inductive disk_color where
  | DISK_LIGHT : disk_color
  | DISK_DARK : disk_color
deriving DecidableEq, Repr

open disk_color

/-- Data structure for the state of one row of disks: `class disk_state` with
its only member `_colors`. -/
structure disk_state where
  _colors : List disk_color
deriving DecidableEq, Repr

/-- The loop `for (i = 0; i < _colors.size(); i += 2) _colors[i] = DISK_DARK`
of the constructor, started at index `i`.  The first argument bounds the
number of iterations (the size of the vector is always enough). -/
def disk_state.construct_loop : Nat → Nat → List disk_color → List disk_color
  | 0, _, colors => colors
  | fuel + 1, i, colors =>
    if i < colors.length then
      disk_state.construct_loop fuel (i + 2) (colors.set i DISK_DARK)
    else colors

/-- Constructor `disk_state(size_t light_count)`: a vector of
`light_count * 2` light disks, the product computed in `size_t`, then
`assert(light_count > 0)`, then every even index is painted dark. -/
def disk_state.construct (light_count : Nat) : Option disk_state :=
  let colors := List.replicate ((light_count * 2) % 2 ^ 64) DISK_LIGHT
  if light_count > 0 then
    some ⟨disk_state.construct_loop colors.length 0 colors⟩
  else none

/-- Member `total_count()`: `_colors.size()`. -/
def disk_state.total_count (s : disk_state) : Nat := s._colors.length

/-- Member `light_count()`: `total_count() / 2`. -/
def disk_state.light_count (s : disk_state) : Nat := s.total_count / 2

/-- Member `dark_count()`: `light_count()`. -/
def disk_state.dark_count (s : disk_state) : Nat := s.light_count

/-- Member `is_index(i)`: `i < total_count()`. -/
def disk_state.is_index (s : disk_state) (i : Nat) : Bool := decide (i < s.total_count)

/-- Member `get(index)`: `assert(is_index(index)); return _colors[index];`. -/
def disk_state.get (s : disk_state) (index : Nat) : Option disk_color :=
  if s.is_index index then s._colors[index]? else none

/-- Member `swap(left_index)`: both `left_index` and `left_index + 1` are
asserted to be indices, then the two colours are exchanged. -/
def disk_state.swap (s : disk_state) (left_index : Nat) : Option disk_state :=
  if s.is_index left_index then
    let right_index := left_index + 1
    if s.is_index right_index then
      match s._colors[left_index]?, s._colors[right_index]? with
      | some l, some r => some ⟨(s._colors.set left_index r).set right_index l⟩
      | _, _ => none
    else none
  else none

/-- The loop of `std::equal(first1, last1, first2)` on the colours of the
left and of the right operand: one comparison per colour of the left operand,
`false` at the first mismatch.  When the right operand is exhausted first the
source reads past the end of its vector, which has no defined result
(`none`). -/
def disk_state.equal_loop : List disk_color → List disk_color → Option Bool
  | [], _ => some true
  | _ :: _, [] => none
  | x :: xs, y :: ys => if x = y then disk_state.equal_loop xs ys else some false

/-- Member `operator==`:
`std::equal(_colors.begin(), _colors.end(), rhs._colors.begin())`. -/
def disk_state.operator_eq (s rhs : disk_state) : Option Bool :=
  disk_state.equal_loop s._colors rhs._colors

/-- The range-for loop of `to_string()` on the pair `(ss, first)`: the
characters written to the stream so far and the flag `first`. -/
def disk_state.to_string_loop : List disk_color → List Char × Bool → List Char × Bool
  | [], st => st
  | color :: rest, st =>
    let ss1 := if !st.2 then st.1 ++ [' '] else st.1
    let ss2 := if color = DISK_LIGHT then ss1 ++ ['L'] else ss1 ++ ['D']
    disk_state.to_string_loop rest (ss2, false)

/-- Member `to_string()`: the contents of the stream after the loop. -/
def disk_state.to_string (s : disk_state) : String :=
  String.mk (disk_state.to_string_loop s._colors ([], true)).1

/-- The `while (is_index(disk_index))` loop of `is_alternating()` on the
locals `disk_color` (0 when the previous disk is dark, 1 when it is light) and
`disk_index`.  The first argument bounds the number of loop tests;
`total_count()` tests are always enough, and `none` stands for a failed
assertion or an exhausted bound. -/
def disk_state.is_alternating_loop (s : disk_state) : Nat → Nat → Nat → Option Bool
  | 0, _, _ => none
  | fuel + 1, disk_color, disk_index =>
    if s.is_index disk_index then
      match s.get disk_index with
      | none => none
      | some c1 =>
        if c1 = DISK_DARK ∧ disk_color = 0 then some false
        else
          match s.get disk_index with
          | none => none
          | some c2 =>
            if c2 = DISK_LIGHT ∧ disk_color = 1 then some false
            else
              disk_state.is_alternating_loop s fuel
                (if disk_color = 0 then disk_color + 1 else disk_color - 1) (disk_index + 1)
    else some true

/-- Member `is_alternating()`: `get(0)` must be dark, then the loop runs from
index 1 with `disk_color = 0`. -/
def disk_state.is_alternating (s : disk_state) : Option Bool :=
  match s.get 0 with
  | none => none
  | some DISK_DARK => s.is_alternating_loop s.total_count 0 1
  | some DISK_LIGHT => some false

/-- One of the two loops of `is_sorted()`: visit the indices in order,
`return false` at the first one whose colour is `bad`; `some true` means the
loop ran to its end. -/
def disk_state.is_sorted_loop (s : disk_state) (bad : disk_color) : List Nat → Option Bool
  | [] => some true
  | i :: rest =>
    match s.get i with
    | none => none
    | some c => if c = bad then some false else disk_state.is_sorted_loop s bad rest

/-- Member `is_sorted()`: no dark disk at the indices `0 .. light_count()-1`,
no light disk at the indices `light_count() .. total_count()-1`. -/
def disk_state.is_sorted (s : disk_state) : Option Bool :=
  match s.is_sorted_loop DISK_DARK (List.range s.light_count) with
  | some true =>
    s.is_sorted_loop DISK_LIGHT (List.range' s.light_count (s.total_count - s.light_count))
  | r => r

/-- Output of the alternating disks problem: `class sorted_disks`.  The field
`_swap_count` is a 32-bit `unsigned`; the constructor below keeps it under
`2 ^ 32`. -/
structure sorted_disks where
  _after : disk_state
  _swap_count : Nat
deriving DecidableEq, Repr

/-- Constructor `sorted_disks(const disk_state& after, unsigned swap_count)`:
the argument is converted to 32-bit `unsigned`. -/
def sorted_disks.construct (after : disk_state) (swap_count : Nat) : sorted_disks :=
  ⟨after, swap_count % 2 ^ 32⟩

/-- Accessor `after()`. -/
def sorted_disks.after (r : sorted_disks) : disk_state := r._after

/-- Accessor `swap_count()`. -/
def sorted_disks.swap_count (r : sorted_disks) : Nat := r._swap_count

/-! ## The two sorters -/

/-- Body of the inner loop of `sort_left_to_right` at index `b`, on the pair
`(before_2, disk_swaps)`.  The `&&` is short-circuit: `get(b+1)` is only
evaluated when `get(b)` is dark.  `disk_swaps++` acts on a 32-bit `int`, kept
as its residue modulo `2 ^ 32`. -/
def sort_left_to_right_body (st : disk_state × Nat) (b : Nat) : Option (disk_state × Nat) :=
  match st.1.get b with
  | none => none
  | some DISK_DARK =>
    match st.1.get (b + 1) with
    | none => none
    | some DISK_LIGHT =>
      match st.1.swap b with
      | none => none
      | some s => some (s, (st.2 + 1) % 2 ^ 32)
    | some DISK_DARK => some st
  | some DISK_LIGHT => some st

/-- Inner loop of `sort_left_to_right`:
`for (b = 0; b < before_2.total_count()-1; b++)`. -/
def sort_left_to_right_pass (st : disk_state × Nat) : Option (disk_state × Nat) :=
  (List.range (st.1.total_count - 1)).foldlM sort_left_to_right_body st

/-- Procedure `sort_left_to_right`: `total_count()` passes of the inner loop
over a copy of the input. -/
def sort_left_to_right (before : disk_state) : Option sorted_disks :=
  let before_2 := before
  let disk_swaps := 0
  match (List.range before_2.total_count).foldlM
      (fun st _ => sort_left_to_right_pass st) (before_2, disk_swaps) with
  | none => none
  | some st => some (sorted_disks.construct st.1 st.2)

/-- Body of the inner loop of `sort_lawnmower` at index `b`.  The `&&` is
short-circuit: `get(b-1)` is only evaluated when `get(b)` is light.  The loop
calls it with `b > a >= 0` only, so `b - 1` does not wrap.  `disk_swaps++`
acts on a 32-bit `int`, kept as its residue modulo `2 ^ 32`. -/
def sort_lawnmower_body (st : disk_state × Nat) (b : Nat) : Option (disk_state × Nat) :=
  match st.1.get b with
  | none => none
  | some DISK_LIGHT =>
    match st.1.get (b - 1) with
    | none => none
    | some DISK_DARK =>
      match st.1.swap (b - 1) with
      | none => none
      | some s => some (s, (st.2 + 1) % 2 ^ 32)
    | some DISK_LIGHT => some st
  | some DISK_DARK => some st

/-- Inner loop of `sort_lawnmower` for the outer counter `a`:
`for (b = before_2.total_count()-1; b > a; b--)`, that is
`b = total_count()-1, ..., a+1`. -/
def sort_lawnmower_pass (st : disk_state × Nat) (a : Nat) : Option (disk_state × Nat) :=
  (List.range' (a + 1) (st.1.total_count - 1 - a)).reverse.foldlM sort_lawnmower_body st

/-- Procedure `sort_lawnmower`: for `a = 0 .. total_count()-1` one downward
pass over the indices above `a`. -/
def sort_lawnmower (before : disk_state) : Option sorted_disks :=
  let before_2 := before
  let disk_swaps := 0
  match (List.range before_2.total_count).foldlM sort_lawnmower_pass (before_2, disk_swaps) with
  | none => none
  | some st => some (sorted_disks.construct st.1 st.2)

/-! ## Specification vocabulary -/

/-- A valid row: `N > 0` light disks and as many dark disks.  Every row
reached from `disk_state(N)`, `N < 2 ^ 63`, by swaps is one
(`reachable_row_valid`). -/
def valid_row (s : disk_state) : Prop :=
  0 < s._colors.count DISK_LIGHT ∧ s._colors.count DISK_LIGHT = s._colors.count DISK_DARK

instance valid_row_decidable (s : disk_state) : Decidable (valid_row s) :=
  inferInstanceAs (Decidable (_ ∧ _))

/-- Number of inversions of a colour sequence: pairs `i < j` with a dark disk
at `i` and a light disk at `j`. -/
def inversions : List disk_color → Nat
  | [] => 0
  | DISK_DARK :: rest => rest.count DISK_LIGHT + inversions rest
  | DISK_LIGHT :: rest => inversions rest

/-- Replay a list of swap positions on a row.  Every position must read
`(DISK_DARK, DISK_LIGHT)` at the moment it is reached, and is then swapped with
`swap`; any other reading aborts the replay. -/
def replay_dark_light_swaps (s : disk_state) : List Nat → Option disk_state
  | [] => some s
  | i :: rest =>
    if s.get i = some DISK_DARK ∧ s.get (i + 1) = some DISK_LIGHT then
      match s.swap i with
      | none => none
      | some t => replay_dark_light_swaps t rest
    else none

/-- The row `t` is obtained from `s` by exactly `k` adjacent swaps, each of a
pair reading `(DISK_DARK, DISK_LIGHT)` when it is swapped. -/
def dark_light_swaps (s : disk_state) (k : Nat) (t : disk_state) : Prop :=
  ∃ idxs : List Nat, idxs.length = k ∧ replay_dark_light_swaps s idxs = some t

/-- The fully sorted arrangement of a colour sequence: its light disks, then
its dark disks. -/
def sorted_form (l : List disk_color) : List disk_color :=
  List.replicate (l.count DISK_LIGHT) DISK_LIGHT ++ List.replicate (l.count DISK_DARK) DISK_DARK

/-! ## List-level description of the passes -/

/-- Effect on the colours of the left-to-right scan from an index holding `x`
over the disks `rest` to its right. -/
def ltr_carry : List disk_color → disk_color → List disk_color
  | [], x => [x]
  | y :: rest, x =>
    if x = DISK_DARK ∧ y = DISK_LIGHT then DISK_LIGHT :: ltr_carry rest DISK_DARK
    else x :: ltr_carry rest y

/-- Effect on the colours of one full left-to-right pass. -/
def ltr_pass : List disk_color → List disk_color
  | [] => []
  | x :: rest => ltr_carry rest x

/-- Effect on the colours of `n` left-to-right passes. -/
def ltr_iter : Nat → List disk_color → List disk_color
  | 0, l => l
  | n + 1, l => ltr_iter n (ltr_pass l)

/-- Effect on the colours of one downward scan over a whole window. -/
def lawn_pass : List disk_color → List disk_color
  | [] => []
  | x :: rest =>
    match lawn_pass rest with
    | [] => [x]
    | y :: r => if y = DISK_LIGHT ∧ x = DISK_DARK then DISK_LIGHT :: DISK_DARK :: r else x :: y :: r

/-- Effect on the colours of `n` successive lawnmower passes, each on the
window left after dropping the first disk of the previous one. -/
def lawn_iter : Nat → List disk_color → List disk_color
  | 0, l => l
  | n + 1, l =>
    match lawn_pass l with
    | [] => []
    | h :: t => h :: lawn_iter n t

/-- Replay a list of swap positions on a row with `swap` alone, whatever the
colours of the swapped pair. -/
def replay_swaps (s : disk_state) : List Nat → Option disk_state
  | [] => some s
  | i :: rest =>
    match s.swap i with
    | none => none
    | some t => replay_swaps t rest

/-- The character `to_string()` writes for one disk. -/
def color_token (c : disk_color) : Char := if c = DISK_LIGHT then 'L' else 'D'

/-- A space followed by its token, for every colour of the list in order. -/
def spaced_tokens : List disk_color → List Char
  | [] => []
  | c :: rest => ' ' :: color_token c :: spaced_tokens rest

/-- Number of index pairs `i < j` of the row with a dark disk at `i` and a
light disk at `j`, counted pair by pair with `get`. -/
def inversion_pairs (s : disk_state) : Nat :=
  ((List.range s.total_count).map (fun i =>
    ((List.range s.total_count).filter (fun j =>
      decide (i < j) && decide (s.get i = some DISK_DARK)
        && decide (s.get j = some DISK_LIGHT))).length)).sum

/-! ## Basic facts on `get` and `swap` -/

theorem get_eq_getElem? (s : disk_state) (i : Nat) : s.get i = s._colors[i]? := by
  unfold disk_state.get disk_state.is_index disk_state.total_count
  by_cases h : i < s._colors.length
  · simp [h]
  · simp only [h, decide_False, Bool.false_eq_true, if_false]
    exact (List.getElem?_eq_none (Nat.le_of_not_lt h)).symm

theorem get_append_cons (p t : List disk_color) (x : disk_color) :
    (⟨p ++ x :: t⟩ : disk_state).get p.length = some x := by
  rw [get_eq_getElem?, List.getElem?_append_right (le_refl _), Nat.sub_self]
  exact List.getElem?_cons_zero

theorem get_append_cons_succ (p t : List disk_color) (x y : disk_color) :
    (⟨p ++ x :: y :: t⟩ : disk_state).get (p.length + 1) = some y := by
  have h := get_append_cons (p ++ [x]) t y
  simpa using h

theorem swap_append_cons (p t : List disk_color) (x y : disk_color) :
    (⟨p ++ x :: y :: t⟩ : disk_state).swap p.length = some ⟨p ++ y :: x :: t⟩ := by
  have h0 : (p ++ x :: y :: t)[p.length]? = some x := by
    have h := get_append_cons p (y :: t) x
    rwa [get_eq_getElem?] at h
  have h1 : (p ++ x :: y :: t)[p.length + 1]? = some y := by
    have h := get_append_cons_succ p t x y
    rwa [get_eq_getElem?] at h
  unfold disk_state.swap disk_state.is_index disk_state.total_count
  simp only [h0, h1]
  have hl : p.length + 1 < (p ++ x :: y :: t).length := by simp
  have hl0 : p.length < (p ++ x :: y :: t).length := by simp
  simp only [hl, hl0, decide_True, if_true]
  congr 2
  rw [List.set_append_right _ _ (le_refl _), Nat.sub_self, List.set_cons_zero]
  rw [List.set_append_right _ _ (Nat.le_succ _)]
  simp

/-! ## Chains of dark-light swaps -/

theorem replay_append (is js : List Nat) : ∀ s : disk_state,
    replay_dark_light_swaps s (is ++ js)
      = (replay_dark_light_swaps s is).bind (fun t => replay_dark_light_swaps t js) := by
  induction is with
  | nil => intro s; rfl
  | cons i rest ih =>
    intro s
    simp only [List.cons_append, replay_dark_light_swaps]
    by_cases h : s.get i = some DISK_DARK ∧ s.get (i + 1) = some DISK_LIGHT
    · simp only [h, and_self, if_true]
      cases s.swap i with
      | none => rfl
      | some t => exact ih t
    · simp only [h, if_false]
      rfl

theorem dark_light_swaps_refl (s : disk_state) : dark_light_swaps s 0 s :=
  ⟨[], rfl, rfl⟩

theorem dark_light_swaps_trans {s t u : disk_state} {k j : Nat}
    (h1 : dark_light_swaps s k t) (h2 : dark_light_swaps t j u) :
    dark_light_swaps s (k + j) u := by
  obtain ⟨is, hk, his⟩ := h1
  obtain ⟨js, hj, hjs⟩ := h2
  refine ⟨is ++ js, by simp [hk, hj], ?_⟩
  rw [replay_append, his]
  exact hjs

theorem dark_light_swaps_one (p t : List disk_color) :
    dark_light_swaps ⟨p ++ DISK_DARK :: DISK_LIGHT :: t⟩ 1 ⟨p ++ DISK_LIGHT :: DISK_DARK :: t⟩ := by
  refine ⟨[p.length], rfl, ?_⟩
  simp [replay_dark_light_swaps, get_append_cons, get_append_cons_succ, swap_append_cons]

theorem split_at_pair {l : List disk_color} {i : Nat} {x y : disk_color}
    (hx : l[i]? = some x) (hy : l[i + 1]? = some y) :
    l = l.take i ++ x :: y :: l.drop (i + 2) := by
  obtain ⟨h0, e0⟩ := List.getElem?_eq_some.1 hx
  obtain ⟨h1, e1⟩ := List.getElem?_eq_some.1 hy
  have d1 : l.drop (i + 1) = y :: l.drop (i + 2) := by
    rw [List.drop_eq_getElem_cons h1, e1]
  have d0 : l.drop i = x :: l.drop (i + 1) := by
    rw [List.drop_eq_getElem_cons h0, e0]
  calc l = l.take i ++ l.drop i := (List.take_append_drop i l).symm
    _ = l.take i ++ x :: y :: l.drop (i + 2) := by rw [d0, d1]

theorem swap_shape {s t : disk_state} {i : Nat}
    (hd : s.get i = some DISK_DARK) (hl : s.get (i + 1) = some DISK_LIGHT)
    (hs : s.swap i = some t) :
    ∃ p r, s._colors = p ++ DISK_DARK :: DISK_LIGHT :: r
      ∧ t._colors = p ++ DISK_LIGHT :: DISK_DARK :: r ∧ p.length = i := by
  rw [get_eq_getElem?] at hd hl
  have hsplit := split_at_pair hd hl
  have hlen : (s._colors.take i).length = i := by
    have := (List.getElem?_eq_some.1 hd).1
    rw [List.length_take]; omega
  refine ⟨s._colors.take i, s._colors.drop (i + 2), hsplit, ?_, hlen⟩
  have hsw := swap_append_cons (s._colors.take i) (s._colors.drop (i + 2)) DISK_DARK DISK_LIGHT
  rw [← hsplit, hlen] at hsw
  have hs2 : s.swap i = some ⟨s._colors.take i ++ DISK_LIGHT :: DISK_DARK :: s._colors.drop (i + 2)⟩ := hsw
  rw [hs] at hs2
  exact congrArg disk_state._colors (Option.some.inj hs2)

theorem inversions_swap (r : List disk_color) : ∀ p : List disk_color,
    inversions (p ++ DISK_LIGHT :: DISK_DARK :: r) + 1
      = inversions (p ++ DISK_DARK :: DISK_LIGHT :: r) := by
  intro p
  induction p with
  | nil => simp [inversions, List.count_cons]; omega
  | cons x p ih =>
    cases x with
    | DISK_LIGHT => simpa [inversions] using ih
    | DISK_DARK =>
      simp only [List.cons_append, inversions, List.count_append, List.count_cons] at ih ⊢
      simp at ih ⊢
      omega

theorem perm_swap (p r : List disk_color) (x y : disk_color) :
    (p ++ y :: x :: r).Perm (p ++ x :: y :: r) :=
  List.Perm.append_left p (List.Perm.swap x y r)

theorem dark_light_swaps_spec {s t : disk_state} {k : Nat} (h : dark_light_swaps s k t) :
    t._colors.Perm s._colors ∧ inversions t._colors + k = inversions s._colors := by
  obtain ⟨idxs, hk, hrep⟩ := h
  subst hk
  induction idxs generalizing s with
  | nil =>
    simp only [replay_dark_light_swaps, Option.some.injEq] at hrep
    subst hrep
    exact ⟨List.Perm.refl _, rfl⟩
  | cons i rest ih =>
    simp only [replay_dark_light_swaps] at hrep
    by_cases hc : s.get i = some DISK_DARK ∧ s.get (i + 1) = some DISK_LIGHT
    · simp only [hc, and_self, if_true] at hrep
      cases hsw : s.swap i with
      | none => rw [hsw] at hrep; cases hrep
      | some u =>
        rw [hsw] at hrep
        obtain ⟨p, r, hs, hu, -⟩ := swap_shape hc.1 hc.2 hsw
        obtain ⟨hp, hi⟩ := ih hrep
        constructor
        · refine hp.trans ?_
          rw [hs, hu]
          exact perm_swap p r DISK_DARK DISK_LIGHT
        · have := inversions_swap r p
          rw [← hs, ← hu] at this
          simp only [List.length_cons]
          omega
    · simp only [hc, if_false] at hrep
      cases hrep

/-! ## The loops of `sort_left_to_right` on colour lists -/

theorem counter_modulus_pos : 0 < 2 ^ 32 := Nat.two_pow_pos 32

theorem ltr_body_eval (p r : List disk_color) (x y : disk_color) (c : Nat) :
    sort_left_to_right_body (⟨p ++ x :: y :: r⟩, c) p.length
      = if x = DISK_DARK ∧ y = DISK_LIGHT then some (⟨p ++ y :: x :: r⟩, (c + 1) % 2 ^ 32)
        else some (⟨p ++ x :: y :: r⟩, c) := by
  simp only [sort_left_to_right_body, get_append_cons, get_append_cons_succ, swap_append_cons]
  cases x <;> cases y <;> simp

theorem ltr_fold (rest : List disk_color) : ∀ (p : List disk_color) (x : disk_color) (c : Nat),
    c < 2 ^ 32 →
    ∃ k, (List.range' p.length rest.length).foldlM sort_left_to_right_body (⟨p ++ x :: rest⟩, c)
          = some (⟨p ++ ltr_carry rest x⟩, (c + k) % 2 ^ 32)
      ∧ dark_light_swaps ⟨p ++ x :: rest⟩ k ⟨p ++ ltr_carry rest x⟩ := by
  induction rest with
  | nil =>
    intro p x c hc
    refine ⟨0, ?_, dark_light_swaps_refl _⟩
    rw [Nat.add_zero, Nat.mod_eq_of_lt hc]
    rfl
  | cons y r ih =>
    intro p x c hc
    rw [List.length_cons, List.range'_succ, List.foldlM_cons, ltr_body_eval]
    by_cases h : x = DISK_DARK ∧ y = DISK_LIGHT
    · obtain ⟨hx, hy⟩ := h
      subst hx; subst hy
      obtain ⟨k, hk, hch⟩ := ih (p ++ [DISK_LIGHT]) DISK_DARK ((c + 1) % 2 ^ 32)
        (Nat.mod_lt _ counter_modulus_pos)
      simp only [List.length_append, List.length_singleton, List.append_assoc,
        List.singleton_append] at hk hch
      refine ⟨1 + k, ?_, ?_⟩
      · simp only [and_self, if_true, ltr_carry, Option.bind_eq_bind, Option.some_bind]
        rw [hk, Nat.mod_add_mod, Nat.add_assoc]
      · simp only [ltr_carry, and_self, if_true]
        exact dark_light_swaps_trans (dark_light_swaps_one p r) hch
    · obtain ⟨k, hk, hch⟩ := ih (p ++ [x]) y c hc
      simp only [List.length_append, List.length_singleton, List.append_assoc,
        List.singleton_append] at hk hch
      refine ⟨k, ?_, ?_⟩
      · simp only [h, if_false, ltr_carry, Option.bind_eq_bind, Option.some_bind]
        exact hk
      · simp only [ltr_carry, h, if_false]
        exact hch

theorem ltr_pass_eval (l : List disk_color) (c : Nat) (hc : c < 2 ^ 32) :
    ∃ k, sort_left_to_right_pass (⟨l⟩, c) = some (⟨ltr_pass l⟩, (c + k) % 2 ^ 32)
      ∧ dark_light_swaps ⟨l⟩ k ⟨ltr_pass l⟩ := by
  cases l with
  | nil =>
    refine ⟨0, ?_, dark_light_swaps_refl _⟩
    rw [Nat.add_zero, Nat.mod_eq_of_lt hc]
    rfl
  | cons x rest =>
    have h := ltr_fold rest [] x c hc
    simp only [List.length_nil, List.nil_append] at h
    simpa only [sort_left_to_right_pass, disk_state.total_count, List.length_cons,
      Nat.add_sub_cancel, List.range_eq_range', ltr_pass] using h

theorem ltr_outer_eval (idxs : List Nat) : ∀ (l : List disk_color) (c : Nat), c < 2 ^ 32 →
    ∃ k, idxs.foldlM (fun st _ => sort_left_to_right_pass st) (⟨l⟩, c)
          = some (⟨ltr_iter idxs.length l⟩, (c + k) % 2 ^ 32)
      ∧ dark_light_swaps ⟨l⟩ k ⟨ltr_iter idxs.length l⟩ := by
  induction idxs with
  | nil =>
    intro l c hc
    refine ⟨0, ?_, dark_light_swaps_refl _⟩
    rw [Nat.add_zero, Nat.mod_eq_of_lt hc]
    rfl
  | cons a rest ih =>
    intro l c hc
    obtain ⟨k1, h1, c1⟩ := ltr_pass_eval l c hc
    obtain ⟨k2, h2, c2⟩ := ih (ltr_pass l) ((c + k1) % 2 ^ 32)
      (Nat.mod_lt _ counter_modulus_pos)
    refine ⟨k1 + k2, ?_, ?_⟩
    · rw [List.foldlM_cons, h1]
      simp only [Option.bind_eq_bind, Option.some_bind, List.length_cons, ltr_iter]
      rw [h2, Nat.mod_add_mod, Nat.add_assoc]
    · simp only [List.length_cons, ltr_iter]
      exact dark_light_swaps_trans c1 c2

theorem sort_left_to_right_eval (s : disk_state) :
    ∃ k, sort_left_to_right s = some ⟨⟨ltr_iter s.total_count s._colors⟩, k % 2 ^ 32⟩
      ∧ dark_light_swaps s k ⟨ltr_iter s.total_count s._colors⟩ := by
  obtain ⟨k, hk, hch⟩ := ltr_outer_eval (List.range s.total_count) s._colors 0
    counter_modulus_pos
  refine ⟨k, ?_, ?_⟩
  · simp only [List.length_range, Nat.zero_add] at hk
    simp only [sort_left_to_right]
    rw [hk]
    simp only [sorted_disks.construct, Nat.mod_mod]
  · simpa only [List.length_range] using hch

/-! ## The loops of `sort_lawnmower` on colour lists -/

theorem lawn_pass_length (l : List disk_color) : (lawn_pass l).length = l.length := by
  induction l with
  | nil => rfl
  | cons x rest ih =>
    simp only [lawn_pass]
    cases h : lawn_pass rest with
    | nil =>
      rw [h] at ih
      simp only [List.length_nil] at ih
      simp only [List.length_cons, List.length_nil]
      omega
    | cons y r =>
      rw [h] at ih
      simp only [List.length_cons] at ih
      by_cases hc : y = DISK_LIGHT ∧ x = DISK_DARK
      · simp only [hc, and_self, if_true, List.length_cons]; omega
      · simp only [hc, if_false, List.length_cons]; omega

theorem lawn_body_eval (p r : List disk_color) (x y : disk_color) (c : Nat) :
    sort_lawnmower_body (⟨p ++ x :: y :: r⟩, c) (p.length + 1)
      = if y = DISK_LIGHT ∧ x = DISK_DARK then some (⟨p ++ y :: x :: r⟩, (c + 1) % 2 ^ 32)
        else some (⟨p ++ x :: y :: r⟩, c) := by
  simp only [sort_lawnmower_body, Nat.add_sub_cancel, get_append_cons, get_append_cons_succ,
    swap_append_cons]
  cases x <;> cases y <;> simp

theorem lawn_fold (w : List disk_color) : ∀ (p : List disk_color) (c : Nat), c < 2 ^ 32 →
    ∃ k, (List.range' (p.length + 1) (w.length - 1)).reverse.foldlM sort_lawnmower_body
            (⟨p ++ w⟩, c)
          = some (⟨p ++ lawn_pass w⟩, (c + k) % 2 ^ 32)
      ∧ dark_light_swaps ⟨p ++ w⟩ k ⟨p ++ lawn_pass w⟩ := by
  induction w with
  | nil =>
    intro p c hc
    refine ⟨0, ?_, dark_light_swaps_refl _⟩
    have e : (c + 0) % 2 ^ 32 = c := by rw [Nat.add_zero, Nat.mod_eq_of_lt hc]
    rw [e]
    rfl
  | cons x rest ih =>
    intro p c hc
    cases rest with
    | nil =>
      refine ⟨0, ?_, dark_light_swaps_refl _⟩
      have e : (c + 0) % 2 ^ 32 = c := by rw [Nat.add_zero, Nat.mod_eq_of_lt hc]
      rw [e]
      rfl
    | cons y r =>
      obtain ⟨k, hk, hch⟩ := ih (p ++ [x]) c hc
      simp only [List.length_append, List.length_singleton, List.append_assoc,
        List.singleton_append, List.length_cons, List.length_nil, Nat.zero_add,
        Nat.add_sub_cancel] at hk hch
      have hlen := lawn_pass_length (y :: r)
      simp only [List.length_cons, Nat.add_sub_cancel]
      rw [List.range'_succ, List.reverse_cons, List.foldlM_append, hk]
      simp only [Option.bind_eq_bind, Option.some_bind, List.foldlM_cons, List.foldlM_nil,
        Option.pure_def, Option.bind_some]
      cases hp : lawn_pass (y :: r) with
      | nil => rw [hp] at hlen; simp at hlen
      | cons h t =>
        rw [hp] at hch
        have hstep : lawn_pass (x :: y :: r)
            = if h = DISK_LIGHT ∧ x = DISK_DARK then DISK_LIGHT :: DISK_DARK :: t
              else x :: h :: t := by
          rw [lawn_pass, hp]
        rw [lawn_body_eval, hstep]
        by_cases hc2 : h = DISK_LIGHT ∧ x = DISK_DARK
        · obtain ⟨hh, hx⟩ := hc2
          subst hh; subst hx
          refine ⟨k + 1, ?_, ?_⟩
          · simp only [and_self, if_true]
            rw [Nat.mod_add_mod, Nat.add_assoc]
          · simp only [and_self, if_true]
            exact dark_light_swaps_trans hch (dark_light_swaps_one p t)
        · refine ⟨k, ?_, ?_⟩
          · simp only [hc2, if_false]
          · simp only [hc2, if_false]
            exact hch

theorem lawn_pass_eval (p w : List disk_color) (c : Nat) (hc : c < 2 ^ 32) :
    ∃ k, sort_lawnmower_pass (⟨p ++ w⟩, c) p.length
          = some (⟨p ++ lawn_pass w⟩, (c + k) % 2 ^ 32)
      ∧ dark_light_swaps ⟨p ++ w⟩ k ⟨p ++ lawn_pass w⟩ := by
  have h := lawn_fold w p c hc
  have e : (p ++ w).length - 1 - p.length = w.length - 1 := by
    rw [List.length_append]; omega
  simpa only [sort_lawnmower_pass, disk_state.total_count, e] using h

theorem lawn_outer_eval (n : Nat) : ∀ (w p : List disk_color) (c : Nat), w.length = n →
    c < 2 ^ 32 →
    ∃ k, (List.range' p.length n).foldlM sort_lawnmower_pass (⟨p ++ w⟩, c)
          = some (⟨p ++ lawn_iter n w⟩, (c + k) % 2 ^ 32)
      ∧ dark_light_swaps ⟨p ++ w⟩ k ⟨p ++ lawn_iter n w⟩ := by
  induction n with
  | zero =>
    intro w p c _ hc
    refine ⟨0, ?_, dark_light_swaps_refl _⟩
    rw [Nat.add_zero, Nat.mod_eq_of_lt hc]
    rfl
  | succ n ih =>
    intro w p c hw hc
    obtain ⟨k1, h1, c1⟩ := lawn_pass_eval p w c hc
    have hlen := lawn_pass_length w
    cases hp : lawn_pass w with
    | nil => rw [hp] at hlen; simp at hlen; omega
    | cons h t =>
      rw [hp] at h1 c1 hlen
      have ht : t.length = n := by simp only [List.length_cons] at hlen; omega
      obtain ⟨k2, h2, c2⟩ := ih t (p ++ [h]) ((c + k1) % 2 ^ 32) ht
        (Nat.mod_lt _ counter_modulus_pos)
      simp only [List.length_append, List.length_singleton, List.append_assoc,
        List.singleton_append] at h2 c2
      refine ⟨k1 + k2, ?_, ?_⟩
      · rw [List.range'_succ, List.foldlM_cons, h1]
        simp only [Option.bind_eq_bind, Option.some_bind, lawn_iter, hp]
        rw [h2, Nat.mod_add_mod, Nat.add_assoc]
      · simp only [lawn_iter, hp]
        exact dark_light_swaps_trans c1 c2

theorem sort_lawnmower_eval (s : disk_state) :
    ∃ k, sort_lawnmower s = some ⟨⟨lawn_iter s.total_count s._colors⟩, k % 2 ^ 32⟩
      ∧ dark_light_swaps s k ⟨lawn_iter s.total_count s._colors⟩ := by
  obtain ⟨k, hk, hch⟩ := lawn_outer_eval s.total_count s._colors [] 0 rfl counter_modulus_pos
  simp only [List.length_nil, List.nil_append, Nat.zero_add] at hk hch
  refine ⟨k, ?_, hch⟩
  simp only [sort_lawnmower, List.range_eq_range']
  rw [hk]
  simp only [sorted_disks.construct, Nat.mod_mod]

/-! ## Two-colour lists -/

theorem eq_replicate_light {m : List disk_color} (h : DISK_DARK ∉ m) :
    m = List.replicate (m.count DISK_LIGHT) DISK_LIGHT := by
  induction m with
  | nil => rfl
  | cons x m ih =>
    cases x with
    | DISK_DARK => exact absurd (List.mem_cons_self _ _) h
    | DISK_LIGHT =>
      have h2 : DISK_DARK ∉ m := fun hm => h (List.mem_cons_of_mem _ hm)
      rw [List.count_cons_self, List.replicate_succ, ← ih h2]

theorem eq_replicate_dark {m : List disk_color} (h : DISK_LIGHT ∉ m) :
    m = List.replicate (m.count DISK_DARK) DISK_DARK := by
  induction m with
  | nil => rfl
  | cons x m ih =>
    cases x with
    | DISK_LIGHT => exact absurd (List.mem_cons_self _ _) h
    | DISK_DARK =>
      have h2 : DISK_LIGHT ∉ m := fun hm => h (List.mem_cons_of_mem _ hm)
      rw [List.count_cons_self, List.replicate_succ, ← ih h2]

theorem length_eq_count_add_count (l : List disk_color) :
    l.length = l.count DISK_LIGHT + l.count DISK_DARK := by
  induction l with
  | nil => rfl
  | cons x l ih =>
    cases x <;> simp [List.count_cons, ih] <;> omega

theorem count_light_replicate_dark (k : Nat) :
    (List.replicate k DISK_DARK).count DISK_LIGHT = 0 := by
  rw [List.count_replicate]; rfl

theorem count_dark_replicate_light (k : Nat) :
    (List.replicate k DISK_LIGHT).count DISK_DARK = 0 := by
  rw [List.count_replicate]; rfl

theorem inversions_replicate_dark (k : Nat) : inversions (List.replicate k DISK_DARK) = 0 := by
  induction k with
  | zero => rfl
  | succ k ih => rw [List.replicate_succ, inversions, ih, count_light_replicate_dark]

theorem inversions_light_dark (a b : Nat) :
    inversions (List.replicate a DISK_LIGHT ++ List.replicate b DISK_DARK) = 0 := by
  induction a with
  | zero => simpa using inversions_replicate_dark b
  | succ a ih => rw [List.replicate_succ, List.cons_append, inversions, ih]

theorem inversions_sorted_form (l : List disk_color) : inversions (sorted_form l) = 0 :=
  inversions_light_dark _ _

theorem inversions_le_dark_mul_light (l : List disk_color) :
    inversions l ≤ l.count DISK_DARK * l.count DISK_LIGHT := by
  induction l with
  | nil => simp [inversions]
  | cons x l ih =>
    cases x with
    | DISK_LIGHT =>
      simp only [inversions, List.count_cons_self, List.count_cons]
      simp only [beq_iff_eq, if_false, Nat.add_zero, reduceCtorEq]
      calc inversions l ≤ l.count DISK_DARK * l.count DISK_LIGHT := ih
        _ ≤ l.count DISK_DARK * (l.count DISK_LIGHT + 1) := Nat.mul_le_mul_left _ (Nat.le_succ _)
    | DISK_DARK =>
      simp only [inversions, List.count_cons_self, List.count_cons]
      simp only [beq_iff_eq, if_false, Nat.add_zero, reduceCtorEq]
      rw [Nat.succ_mul]
      omega

/-- The number of swaps either sorter performs stays below `2 ^ 31` on every
row of fewer than `2 ^ 16` disks, so the `int` counter of the source does not
leave its range there. -/
theorem swap_counter_in_range (s : disk_state) (h : s.total_count < 2 ^ 16) :
    inversions s._colors < 2 ^ 31 := by
  have h1 := inversions_le_dark_mul_light s._colors
  have h2 := length_eq_count_add_count s._colors
  unfold disk_state.total_count at h
  have h3 : s._colors.count DISK_DARK * s._colors.count DISK_LIGHT < 2 ^ 31 := by
    by_cases hd : s._colors.count DISK_DARK < 2 ^ 15
    · calc s._colors.count DISK_DARK * s._colors.count DISK_LIGHT
          ≤ 2 ^ 15 * s._colors.count DISK_LIGHT := Nat.mul_le_mul_right _ (Nat.le_of_lt hd)
        _ < 2 ^ 15 * 2 ^ 16 := Nat.mul_lt_mul_of_pos_left (by omega) (by norm_num)
        _ = 2 ^ 31 := by norm_num
    · have hl : s._colors.count DISK_LIGHT < 2 ^ 15 := by omega
      calc s._colors.count DISK_DARK * s._colors.count DISK_LIGHT
          ≤ s._colors.count DISK_DARK * 2 ^ 15 := Nat.mul_le_mul_left _ (Nat.le_of_lt hl)
        _ < 2 ^ 16 * 2 ^ 15 := Nat.mul_lt_mul_of_pos_right (by omega) (by norm_num)
        _ = 2 ^ 31 := by norm_num
  omega

/-! ## Left-to-right passes reach the sorted form -/

theorem ltr_carry_dark (rest : List disk_color) :
    ltr_carry rest DISK_DARK = rest ++ [DISK_DARK] := by
  induction rest with
  | nil => rfl
  | cons y r ih => cases y <;> simp [ltr_carry, ih]

theorem ltr_pass_cons_light (l : List disk_color) :
    ltr_pass (DISK_LIGHT :: l) = DISK_LIGHT :: ltr_pass l := by
  cases l with
  | nil => rfl
  | cons y r => simp [ltr_pass, ltr_carry]

theorem ltr_pass_no_dark (k : Nat) : ∀ m : List disk_color, DISK_DARK ∉ m →
    ltr_pass (m ++ List.replicate k DISK_DARK) = m ++ List.replicate k DISK_DARK := by
  intro m
  induction m with
  | nil =>
    intro _
    cases k with
    | zero => rfl
    | succ k =>
      rw [List.nil_append, List.replicate_succ, ltr_pass, ltr_carry_dark,
        ← List.replicate_succ', List.replicate_succ]
  | cons x m ih =>
    intro h
    cases x with
    | DISK_DARK => exact absurd (List.mem_cons_self _ _) h
    | DISK_LIGHT =>
      have h2 : DISK_DARK ∉ m := fun hm => h (List.mem_cons_of_mem _ hm)
      rw [List.cons_append, ltr_pass_cons_light, ih h2]

theorem ltr_pass_dark (k : Nat) : ∀ m : List disk_color, DISK_DARK ∈ m →
    ∃ m2, ltr_pass (m ++ List.replicate k DISK_DARK) = m2 ++ List.replicate (k + 1) DISK_DARK
      ∧ m2.count DISK_DARK + 1 = m.count DISK_DARK
      ∧ m2.count DISK_LIGHT = m.count DISK_LIGHT := by
  intro m
  induction m with
  | nil => intro h; cases h
  | cons x m ih =>
    intro h
    cases x with
    | DISK_DARK =>
      refine ⟨m, ?_, by simp, by simp [List.count_cons]⟩
      rw [List.cons_append, ltr_pass, ltr_carry_dark, List.append_assoc,
        ← List.replicate_succ']
    | DISK_LIGHT =>
      have h2 : DISK_DARK ∈ m := by
        rcases List.mem_cons.1 h with h | h
        · cases h
        · exact h
      obtain ⟨m2, e, cd, cl⟩ := ih h2
      refine ⟨DISK_LIGHT :: m2, ?_, ?_, ?_⟩
      · rw [List.cons_append, ltr_pass_cons_light, e, List.cons_append]
      · simp [List.count_cons]; omega
      · simp [List.count_cons]; omega

theorem ltr_iter_sorted (n : Nat) : ∀ (m : List disk_color) (k : Nat), m.count DISK_DARK ≤ n →
    ltr_iter n (m ++ List.replicate k DISK_DARK)
      = List.replicate (m.count DISK_LIGHT) DISK_LIGHT
        ++ List.replicate (m.count DISK_DARK + k) DISK_DARK := by
  induction n with
  | zero =>
    intro m k h
    have h0 : m.count DISK_DARK = 0 := Nat.le_zero.1 h
    have hm : DISK_DARK ∉ m := List.count_eq_zero.1 h0
    rw [ltr_iter, h0, Nat.zero_add, ← eq_replicate_light hm]
  | succ n ih =>
    intro m k h
    rw [ltr_iter]
    by_cases hm : DISK_DARK ∈ m
    · obtain ⟨m2, e, cd, cl⟩ := ltr_pass_dark k m hm
      rw [e, ih m2 (k + 1) (by omega), cl]
      congr 2
      omega
    · rw [ltr_pass_no_dark k m hm]
      have h0 : m.count DISK_DARK = 0 := List.count_eq_zero.2 hm
      exact ih m k (by omega)

theorem ltr_iter_eq_sorted_form (n : Nat) (l : List disk_color) (h : l.count DISK_DARK ≤ n) :
    ltr_iter n l = sorted_form l := by
  have := ltr_iter_sorted n l 0 h
  simpa [sorted_form] using this

/-! ## Lawnmower passes reach the sorted form -/

theorem lawn_pass_no_light : ∀ l : List disk_color, DISK_LIGHT ∉ l → lawn_pass l = l := by
  intro l
  induction l with
  | nil => intro _; rfl
  | cons x rest ih =>
    intro h
    have h2 : DISK_LIGHT ∉ rest := fun hm => h (List.mem_cons_of_mem _ hm)
    rw [lawn_pass, ih h2]
    cases rest with
    | nil => rfl
    | cons y r =>
      cases y with
      | DISK_LIGHT => exact absurd (List.mem_cons_self _ _) h2
      | DISK_DARK => simp

theorem lawn_pass_light : ∀ l : List disk_color, DISK_LIGHT ∈ l →
    ∃ t, lawn_pass l = DISK_LIGHT :: t
      ∧ t.count DISK_LIGHT + 1 = l.count DISK_LIGHT
      ∧ t.count DISK_DARK = l.count DISK_DARK := by
  intro l
  induction l with
  | nil => intro h; cases h
  | cons x rest ih =>
    intro h
    by_cases hr : DISK_LIGHT ∈ rest
    · obtain ⟨t, e, cl, cd⟩ := ih hr
      refine ⟨x :: t, ?_, ?_, ?_⟩
      · rw [lawn_pass, e]
        cases x <;> simp
      · cases x <;> simp [List.count_cons] <;> omega
      · cases x <;> simp [List.count_cons] <;> omega
    · have hx : x = DISK_LIGHT := by
        rcases List.mem_cons.1 h with h | h
        · exact h.symm
        · exact absurd h hr
      subst hx
      refine ⟨rest, ?_, by simp, by simp [List.count_cons]⟩
      rw [lawn_pass, lawn_pass_no_light rest hr]
      cases rest with
      | nil => rfl
      | cons y r =>
        cases y with
        | DISK_LIGHT => exact absurd (List.mem_cons_self _ _) hr
        | DISK_DARK => simp

theorem lawn_iter_eq_sorted_form (n : Nat) : ∀ l : List disk_color, l.length = n →
    lawn_iter n l = sorted_form l := by
  induction n with
  | zero =>
    intro l h
    have : l = [] := List.length_eq_zero.1 h
    subst this
    rfl
  | succ n ih =>
    intro l h
    by_cases hl : DISK_LIGHT ∈ l
    · obtain ⟨t, e, cl, cd⟩ := lawn_pass_light l hl
      have hlen := lawn_pass_length l
      rw [e, List.length_cons] at hlen
      rw [lawn_iter, e]
      simp only
      rw [ih t (by omega), sorted_form, sorted_form, ← cl, cd, List.replicate_succ,
        List.cons_append]
    · have e := lawn_pass_no_light l hl
      cases l with
      | nil => cases h
      | cons x t =>
        cases x with
        | DISK_LIGHT => exact absurd (List.mem_cons_self _ _) hl
        | DISK_DARK =>
          have ht : DISK_LIGHT ∉ t := fun hm => hl (List.mem_cons_of_mem _ hm)
          have c0 : t.count DISK_LIGHT = 0 := List.count_eq_zero.2 ht
          rw [lawn_iter, e]
          simp only
          rw [ih t (by simpa using h), sorted_form, sorted_form]
          simp [List.count_cons, c0, List.replicate_succ]

/-! ## What the two sorters compute -/

theorem sort_left_to_right_core (s : disk_state) :
    sort_left_to_right s = some ⟨⟨sorted_form s._colors⟩, inversions s._colors % 2 ^ 32⟩
      ∧ dark_light_swaps s (inversions s._colors) ⟨sorted_form s._colors⟩ := by
  obtain ⟨k, hk, hch⟩ := sort_left_to_right_eval s
  have hsf : ltr_iter s.total_count s._colors = sorted_form s._colors :=
    ltr_iter_eq_sorted_form _ _ (List.count_le_length _ _)
  rw [hsf] at hk hch
  have hinv := (dark_light_swaps_spec hch).2
  simp only [inversions_sorted_form, Nat.zero_add] at hinv
  subst hinv
  exact ⟨hk, hch⟩

theorem sort_lawnmower_core (s : disk_state) :
    sort_lawnmower s = some ⟨⟨sorted_form s._colors⟩, inversions s._colors % 2 ^ 32⟩
      ∧ dark_light_swaps s (inversions s._colors) ⟨sorted_form s._colors⟩ := by
  obtain ⟨k, hk, hch⟩ := sort_lawnmower_eval s
  have hsf : lawn_iter s.total_count s._colors = sorted_form s._colors :=
    lawn_iter_eq_sorted_form _ _ rfl
  rw [hsf] at hk hch
  have hinv := (dark_light_swaps_spec hch).2
  simp only [inversions_sorted_form, Nat.zero_add] at hinv
  subst hinv
  exact ⟨hk, hch⟩

/-! ## The predicate `is_sorted` -/

theorem is_sorted_loop_iff (s : disk_state) (bad : disk_color) : ∀ idxs : List Nat,
    s.is_sorted_loop bad idxs = some true ↔ ∀ i ∈ idxs, ∃ c, s.get i = some c ∧ c ≠ bad := by
  intro idxs
  induction idxs with
  | nil => simp [disk_state.is_sorted_loop]
  | cons i rest ih =>
    simp only [disk_state.is_sorted_loop, List.mem_cons, forall_eq_or_imp]
    cases h : s.get i with
    | none => simp
    | some c =>
      by_cases hc : c = bad
      · simp [hc]
      · simp [hc, ih]

theorem ne_dark_iff (c : disk_color) : c ≠ DISK_DARK ↔ c = DISK_LIGHT := by
  cases c <;> simp

theorem ne_light_iff (c : disk_color) : c ≠ DISK_LIGHT ↔ c = DISK_DARK := by
  cases c <;> simp

theorem is_sorted_iff (s : disk_state) :
    s.is_sorted = some true ↔
      (∀ i, i < s.light_count → s.get i = some DISK_LIGHT)
      ∧ (∀ i, s.light_count ≤ i → i < s.total_count → s.get i = some DISK_DARK) := by
  have h1 := is_sorted_loop_iff s DISK_DARK (List.range s.light_count)
  have h2 := is_sorted_loop_iff s DISK_LIGHT
    (List.range' s.light_count (s.total_count - s.light_count))
  have hle : s.light_count ≤ s.total_count := Nat.div_le_self _ _
  have e1 : (∀ i ∈ List.range s.light_count, ∃ c, s.get i = some c ∧ c ≠ DISK_DARK)
      ↔ ∀ i, i < s.light_count → s.get i = some DISK_LIGHT := by
    constructor
    · intro h i hi
      obtain ⟨c, hc, hn⟩ := h i (List.mem_range.2 hi)
      rw [hc, (ne_dark_iff c).1 hn]
    · intro h i hi
      exact ⟨DISK_LIGHT, h i (List.mem_range.1 hi), by decide⟩
  have e2 : (∀ i ∈ List.range' s.light_count (s.total_count - s.light_count),
        ∃ c, s.get i = some c ∧ c ≠ DISK_LIGHT)
      ↔ ∀ i, s.light_count ≤ i → i < s.total_count → s.get i = some DISK_DARK := by
    constructor
    · intro h i hi hi2
      obtain ⟨c, hc, hn⟩ := h i (List.mem_range'_1.2 ⟨hi, by omega⟩)
      rw [hc, (ne_light_iff c).1 hn]
    · intro h i hi
      have := List.mem_range'_1.1 hi
      exact ⟨DISK_DARK, h i this.1 (by omega), by decide⟩
  rw [← e1, ← e2, ← h1, ← h2]
  unfold disk_state.is_sorted
  cases hres : s.is_sorted_loop DISK_DARK (List.range s.light_count) with
  | none => simp
  | some b =>
    cases b with
    | true => simp
    | false => simp

theorem get_light_dark (a b i : Nat) :
    (⟨List.replicate a DISK_LIGHT ++ List.replicate b DISK_DARK⟩ : disk_state).get i
      = if i < a then some DISK_LIGHT else if i < a + b then some DISK_DARK else none := by
  rw [get_eq_getElem?]
  by_cases h : i < a
  · rw [List.getElem?_append_left (by simpa using h), List.getElem?_replicate]
    simp [h]
  · rw [List.getElem?_append_right (by simpa using h), List.getElem?_replicate]
    simp only [List.length_replicate, h, if_false]
    by_cases h2 : i < a + b
    · have : i - a < b := by omega
      simp [this, h2]
    · have : ¬ i - a < b := by omega
      simp [this, h2]

theorem is_sorted_light_dark (a : Nat) :
    (⟨List.replicate a DISK_LIGHT ++ List.replicate a DISK_DARK⟩ : disk_state).is_sorted
      = some true := by
  rw [is_sorted_iff]
  have htc : (⟨List.replicate a DISK_LIGHT ++ List.replicate a DISK_DARK⟩ :
      disk_state).total_count = a + a := by
    simp [disk_state.total_count]
  have hlc : (⟨List.replicate a DISK_LIGHT ++ List.replicate a DISK_DARK⟩ :
      disk_state).light_count = a := by
    rw [disk_state.light_count, htc]; omega
  rw [hlc, htc]
  constructor
  · intro i hi
    rw [get_light_dark]; simp [hi]
  · intro i hi hi2
    rw [get_light_dark]
    have : ¬ i < a := by omega
    simp [this, hi2]

theorem is_sorted_shape {s : disk_state} (h : s.is_sorted = some true) :
    s._colors = List.replicate s.light_count DISK_LIGHT
      ++ List.replicate (s.total_count - s.light_count) DISK_DARK := by
  obtain ⟨h1, h2⟩ := (is_sorted_iff s).1 h
  have hle : s.light_count ≤ s.total_count := Nat.div_le_self _ _
  apply List.ext_getElem?
  intro n
  have hr := get_light_dark s.light_count (s.total_count - s.light_count) n
  rw [get_eq_getElem?] at hr
  rw [hr]
  by_cases hn : n < s.light_count
  · rw [← get_eq_getElem?, h1 n hn]; simp [hn]
  · by_cases hn2 : n < s.total_count
    · have : n < s.light_count + (s.total_count - s.light_count) := by omega
      rw [← get_eq_getElem?, h2 n (by omega) hn2]; simp [hn, this]
    · have : ¬ n < s.light_count + (s.total_count - s.light_count) := by omega
      simp only [hn, this, if_false]
      exact List.getElem?_eq_none (by unfold disk_state.total_count at hn2; omega)

theorem sorted_form_light_dark (a b : Nat) :
    sorted_form (List.replicate a DISK_LIGHT ++ List.replicate b DISK_DARK)
      = List.replicate a DISK_LIGHT ++ List.replicate b DISK_DARK := by
  simp [sorted_form, List.count_append, count_light_replicate_dark, count_dark_replicate_light]

/-! ## The constructor -/

theorem get_out_of_range (s : disk_state) (i : Nat) (h : ¬ i < s.total_count) :
    s.get i = none := by
  simp [disk_state.get, disk_state.is_index, h]

theorem swap_out_of_range (s : disk_state) (i : Nat) (h : ¬ i + 1 < s.total_count) :
    s.swap i = none := by
  unfold disk_state.swap disk_state.is_index
  by_cases h0 : i < s.total_count
  · simp [h0, h]
  · simp [h0]

theorem swap_shape_any {s t : disk_state} {i : Nat} (hs : s.swap i = some t) :
    ∃ p r x y, s._colors = p ++ x :: y :: r ∧ t._colors = p ++ y :: x :: r ∧ p.length = i := by
  have hin : i + 1 < s.total_count := by
    by_contra hc
    rw [swap_out_of_range s i hc] at hs
    cases hs
  unfold disk_state.total_count at hin
  obtain ⟨x, hx⟩ : ∃ x, s._colors[i]? = some x :=
    ⟨_, List.getElem?_eq_getElem (by omega)⟩
  obtain ⟨y, hy⟩ : ∃ y, s._colors[i + 1]? = some y :=
    ⟨_, List.getElem?_eq_getElem hin⟩
  have hsplit := split_at_pair hx hy
  have hlen : (s._colors.take i).length = i := by
    rw [List.length_take]; omega
  refine ⟨s._colors.take i, s._colors.drop (i + 2), x, y, hsplit, ?_, hlen⟩
  have hsw := swap_append_cons (s._colors.take i) (s._colors.drop (i + 2)) x y
  rw [← hsplit, hlen] at hsw
  have hs2 : s.swap i = some ⟨s._colors.take i ++ y :: x :: s._colors.drop (i + 2)⟩ := hsw
  rw [hs] at hs2
  exact congrArg disk_state._colors (Option.some.inj hs2)

theorem inversions_swap_any (p r : List disk_color) (x y : disk_color) :
    inversions (p ++ x :: y :: r) ≤ inversions (p ++ y :: x :: r) + 1 := by
  cases x <;> cases y
  · omega
  · have := inversions_swap r p; omega
  · have := inversions_swap r p; omega
  · omega

theorem replay_swaps_inversions : ∀ (idxs : List Nat) (s t : disk_state),
    replay_swaps s idxs = some t → inversions s._colors ≤ inversions t._colors + idxs.length := by
  intro idxs
  induction idxs with
  | nil =>
    intro s t h
    simp only [replay_swaps, Option.some.injEq] at h
    subst h
    simp
  | cons i rest ih =>
    intro s t h
    simp only [replay_swaps] at h
    cases hsw : s.swap i with
    | none => rw [hsw] at h; cases h
    | some u =>
      rw [hsw] at h
      obtain ⟨p, r, x, y, hs, hu, -⟩ := swap_shape_any hsw
      have h1 := ih u t h
      have h2 := inversions_swap_any p r x y
      rw [← hs, ← hu] at h2
      simp only [List.length_cons]
      omega

theorem exists_split_at_pair (l : List disk_color) (b : Nat) (h : b + 1 < l.length) :
    ∃ p x y r, l = p ++ x :: y :: r ∧ p.length = b := by
  obtain ⟨x, hx⟩ : ∃ x, l[b]? = some x := ⟨_, List.getElem?_eq_getElem (by omega)⟩
  obtain ⟨y, hy⟩ : ∃ y, l[b + 1]? = some y := ⟨_, List.getElem?_eq_getElem h⟩
  refine ⟨l.take b, x, y, l.drop (b + 2), split_at_pair hx hy, ?_⟩
  rw [List.length_take]; omega

theorem ltr_body_in_range (st : disk_state × Nat) (b : Nat) (h : b + 1 < st.1.total_count) :
    ∃ st2, sort_left_to_right_body st b = some st2 ∧ st2.1.total_count = st.1.total_count := by
  obtain ⟨⟨l⟩, c⟩ := st
  obtain ⟨p, x, y, r, rfl, rfl⟩ := exists_split_at_pair l b h
  rw [ltr_body_eval]
  by_cases hc : x = DISK_DARK ∧ y = DISK_LIGHT
  · exact ⟨_, if_pos hc, by simp [disk_state.total_count]⟩
  · exact ⟨_, if_neg hc, rfl⟩

theorem lawn_body_in_range (st : disk_state × Nat) (b : Nat) (h0 : 0 < b)
    (h : b < st.1.total_count) :
    ∃ st2, sort_lawnmower_body st b = some st2 ∧ st2.1.total_count = st.1.total_count := by
  obtain ⟨⟨l⟩, c⟩ := st
  obtain ⟨j, rfl⟩ : ∃ j, b = j + 1 := ⟨b - 1, by omega⟩
  obtain ⟨p, x, y, r, rfl, rfl⟩ := exists_split_at_pair l j h
  rw [lawn_body_eval]
  by_cases hc : y = DISK_LIGHT ∧ x = DISK_DARK
  · exact ⟨_, if_pos hc, by simp [disk_state.total_count]⟩
  · exact ⟨_, if_neg hc, rfl⟩

theorem sorted_form_of_balanced (l : List disk_color)
    (h : l.count DISK_LIGHT = l.count DISK_DARK) :
    (⟨sorted_form l⟩ : disk_state).is_sorted = some true := by
  rw [sorted_form, ← h]
  exact is_sorted_light_dark _

/-! ## Inversions counted pair by pair -/

theorem filter_range_cons (p : Nat → Bool) (n : Nat) (h0 : p 0 = false) :
    ((List.range (n + 1)).filter p).length
      = ((List.range n).filter (fun j => p (j + 1))).length := by
  rw [List.range_succ_eq_map, List.filter_cons, h0, List.filter_map]
  simp only [Bool.false_eq_true, if_false, List.length_map]
  rfl

theorem count_eq_filter_range (c : disk_color) : ∀ t : List disk_color,
    ((List.range t.length).filter (fun j => decide (t[j]? = some c))).length = t.count c := by
  intro t
  induction t with
  | nil => rfl
  | cons x t ih =>
    rw [List.length_cons, List.range_succ_eq_map, List.filter_cons, List.filter_map,
      List.count_cons]
    have hcomp : ((fun j => decide ((x :: t)[j]? = some c)) ∘ Nat.succ)
        = fun j => decide (t[j]? = some c) := by
      funext j
      simp
    rw [hcomp]
    by_cases hx : x = c
    · simp [hx, ih]
    · simp [hx, ih]

theorem pair_count_cons (x : disk_color) (t : List disk_color) :
    ((List.range (t.length + 1)).map (fun i =>
        ((List.range (t.length + 1)).filter (fun j =>
          decide (i < j) && decide ((x :: t)[i]? = some DISK_DARK)
            && decide ((x :: t)[j]? = some DISK_LIGHT))).length)).sum
      = (if x = DISK_DARK then t.count DISK_LIGHT else 0)
        + ((List.range t.length).map (fun i =>
            ((List.range t.length).filter (fun j =>
              decide (i < j) && decide (t[i]? = some DISK_DARK)
                && decide (t[j]? = some DISK_LIGHT))).length)).sum := by
  have hinner : ∀ i, ((List.range (t.length + 1)).filter (fun j =>
          decide (i < j) && decide ((x :: t)[i]? = some DISK_DARK)
            && decide ((x :: t)[j]? = some DISK_LIGHT))).length
      = ((List.range t.length).filter (fun j =>
          decide (i < j + 1) && decide ((x :: t)[i]? = some DISK_DARK)
            && decide (t[j]? = some DISK_LIGHT))).length := by
    intro i
    rw [filter_range_cons _ _ (by simp)]
    simp
  simp only [hinner]
  rw [List.range_succ_eq_map, List.map_cons, List.sum_cons, List.map_map]
  congr 1
  · by_cases hx : x = DISK_DARK
    · simp [hx, count_eq_filter_range]
    · simp [hx]
  · congr 1
    apply List.map_congr_left
    intro i _
    simp

theorem inversion_pairs_eq_inversions : ∀ l : List disk_color,
    inversion_pairs ⟨l⟩ = inversions l := by
  intro l
  induction l with
  | nil => rfl
  | cons x t ih =>
    have hp := pair_count_cons x t
    simp only [inversion_pairs, disk_state.total_count, get_eq_getElem?, List.length_cons]
      at ih ⊢
    rw [hp, ih]
    cases x <;> simp [inversions]

/-! ## Rows on which the 32-bit counter wraps, and rows on which it does not -/

theorem inversions_lt_of_light_count (s : disk_state) (h : valid_row s)
    (hb : s.light_count < 2 ^ 16) : inversions s._colors < 2 ^ 32 := by
  have h1 := inversions_le_dark_mul_light s._colors
  have h2 := length_eq_count_add_count s._colors
  have h3 := h.2
  unfold disk_state.light_count disk_state.total_count at hb
  have hd : s._colors.count DISK_DARK < 2 ^ 16 := by omega
  have hl : s._colors.count DISK_LIGHT < 2 ^ 16 := by omega
  calc inversions s._colors ≤ s._colors.count DISK_DARK * s._colors.count DISK_LIGHT := h1
    _ ≤ s._colors.count DISK_DARK * 2 ^ 16 := Nat.mul_le_mul_left _ (Nat.le_of_lt hl)
    _ < 2 ^ 16 * 2 ^ 16 := Nat.mul_lt_mul_of_pos_right hd (by norm_num)
    _ = 2 ^ 32 := by norm_num

theorem inversion_pairs_lt_of_light_count (s : disk_state) (h : valid_row s)
    (hb : s.light_count < 2 ^ 16) : inversion_pairs s < 2 ^ 32 := by
  rw [show inversion_pairs s = inversions s._colors from inversion_pairs_eq_inversions s._colors]
  exact inversions_lt_of_light_count s h hb

/-! ## Verified properties of the sorters and of the constructor -/

/-- C1: for every valid row (as many light as dark disks, at least one of
each) both `sort_left_to_right` and `sort_lawnmower` return a result whose
`after()` row satisfies `is_sorted()`. -/
theorem sorters_output_is_sorted (s : disk_state) (h : valid_row s) :
    (∃ r, sort_left_to_right s = some r ∧ r.after.is_sorted = some true)
    ∧ (∃ r, sort_lawnmower s = some r ∧ r.after.is_sorted = some true) :=
  ⟨⟨_, (sort_left_to_right_core s).1, sorted_form_of_balanced _ h.2⟩,
   ⟨_, (sort_lawnmower_core s).1, sorted_form_of_balanced _ h.2⟩⟩

theorem sorters_output_is_sorted_witness :
    valid_row ⟨[DISK_DARK, DISK_LIGHT, DISK_LIGHT, DISK_DARK]⟩
    ∧ ((∃ r, sort_left_to_right ⟨[DISK_DARK, DISK_LIGHT, DISK_LIGHT, DISK_DARK]⟩ = some r
          ∧ r.after.is_sorted = some true)
      ∧ (∃ r, sort_lawnmower ⟨[DISK_DARK, DISK_LIGHT, DISK_LIGHT, DISK_DARK]⟩ = some r
          ∧ r.after.is_sorted = some true)) :=
  ⟨by decide, sorters_output_is_sorted ⟨[DISK_DARK, DISK_LIGHT, DISK_LIGHT, DISK_DARK]⟩ (by decide)⟩

theorem permutation_facts {s t : disk_state} {k : Nat} (h : dark_light_swaps s k t) :
    t._colors.Perm s._colors ∧ t.total_count = s.total_count
      ∧ t.light_count = s.light_count ∧ t.dark_count = s.dark_count
      ∧ t._colors.count DISK_LIGHT = s._colors.count DISK_LIGHT
      ∧ t._colors.count DISK_DARK = s._colors.count DISK_DARK := by
  have hp := (dark_light_swaps_spec h).1
  have hl : t.total_count = s.total_count := hp.length_eq
  refine ⟨hp, hl, ?_, ?_, hp.count_eq _, hp.count_eq _⟩
  · simp only [disk_state.light_count, hl]
  · simp only [disk_state.dark_count, disk_state.light_count, hl]

/-- C2: for every valid row, the output row of each sorter is a permutation
of the input row: same `total_count()`, `light_count()` and `dark_count()`,
and the same number of light and of dark disks. -/
theorem sorters_output_is_permutation (s : disk_state) (_h : valid_row s) :
    (∃ r, sort_left_to_right s = some r
        ∧ r.after._colors.Perm s._colors ∧ r.after.total_count = s.total_count
        ∧ r.after.light_count = s.light_count ∧ r.after.dark_count = s.dark_count
        ∧ r.after._colors.count DISK_LIGHT = s._colors.count DISK_LIGHT
        ∧ r.after._colors.count DISK_DARK = s._colors.count DISK_DARK)
    ∧ (∃ r, sort_lawnmower s = some r
        ∧ r.after._colors.Perm s._colors ∧ r.after.total_count = s.total_count
        ∧ r.after.light_count = s.light_count ∧ r.after.dark_count = s.dark_count
        ∧ r.after._colors.count DISK_LIGHT = s._colors.count DISK_LIGHT
        ∧ r.after._colors.count DISK_DARK = s._colors.count DISK_DARK) :=
  ⟨⟨_, (sort_left_to_right_core s).1, permutation_facts (sort_left_to_right_core s).2⟩,
   ⟨_, (sort_lawnmower_core s).1, permutation_facts (sort_lawnmower_core s).2⟩⟩

theorem sorters_output_is_permutation_witness :
    valid_row ⟨[DISK_DARK, DISK_DARK, DISK_LIGHT, DISK_LIGHT]⟩
    ∧ (∃ r, sort_left_to_right ⟨[DISK_DARK, DISK_DARK, DISK_LIGHT, DISK_LIGHT]⟩ = some r
        ∧ r.after._colors.Perm [DISK_DARK, DISK_DARK, DISK_LIGHT, DISK_LIGHT]
        ∧ r.after.total_count = 4) :=
  ⟨by decide,
    (sorters_output_is_permutation ⟨[DISK_DARK, DISK_DARK, DISK_LIGHT, DISK_LIGHT]⟩
      (by decide)).1.imp (fun _ hr => ⟨hr.1, hr.2.1, hr.2.2.1⟩)⟩

/-- C3: for every valid row the two sorters return the same `after()` row:
the two rows are equal, and `get` returns the same colour at every index. -/
theorem sorters_output_rows_agree (s : disk_state) (_h : valid_row s) :
    ∃ r1 r2, sort_left_to_right s = some r1 ∧ sort_lawnmower s = some r2
      ∧ r1.after = r2.after ∧ ∀ i, r1.after.get i = r2.after.get i :=
  ⟨_, _, (sort_left_to_right_core s).1, (sort_lawnmower_core s).1, rfl, fun _ => rfl⟩

theorem sorters_output_rows_agree_witness :
    valid_row ⟨[DISK_LIGHT, DISK_DARK, DISK_DARK, DISK_LIGHT]⟩
    ∧ ∃ r1 r2, sort_left_to_right ⟨[DISK_LIGHT, DISK_DARK, DISK_DARK, DISK_LIGHT]⟩ = some r1
      ∧ sort_lawnmower ⟨[DISK_LIGHT, DISK_DARK, DISK_DARK, DISK_LIGHT]⟩ = some r2
      ∧ r1.after = r2.after ∧ ∀ i, r1.after.get i = r2.after.get i :=
  ⟨by decide, sorters_output_rows_agree ⟨[DISK_LIGHT, DISK_DARK, DISK_DARK, DISK_LIGHT]⟩ (by decide)⟩

/-- C5: idempotence.  On a valid row for which `is_sorted()` is true, each
sorter returns `swap_count() = 0` and an `after()` row equal to the input. -/
theorem sorters_idempotent (s : disk_state) (_h : valid_row s) (hs : s.is_sorted = some true) :
    sort_left_to_right s = some ⟨s, 0⟩ ∧ sort_lawnmower s = some ⟨s, 0⟩ := by
  have hshape := is_sorted_shape hs
  have hsf : sorted_form s._colors = s._colors := by
    rw [hshape]; exact sorted_form_light_dark _ _
  have hinv : inversions s._colors = 0 := by
    rw [hshape]; exact inversions_light_dark _ _
  have e : (⟨sorted_form s._colors⟩ : disk_state) = s := by rw [hsf]
  constructor
  · rw [(sort_left_to_right_core s).1, hinv, e, Nat.zero_mod]
  · rw [(sort_lawnmower_core s).1, hinv, e, Nat.zero_mod]

theorem sorters_idempotent_witness :
    valid_row ⟨[DISK_LIGHT, DISK_LIGHT, DISK_DARK, DISK_DARK]⟩
    ∧ (⟨[DISK_LIGHT, DISK_LIGHT, DISK_DARK, DISK_DARK]⟩ : disk_state).is_sorted = some true
    ∧ sort_left_to_right ⟨[DISK_LIGHT, DISK_LIGHT, DISK_DARK, DISK_DARK]⟩
        = some ⟨⟨[DISK_LIGHT, DISK_LIGHT, DISK_DARK, DISK_DARK]⟩, 0⟩
    ∧ sort_lawnmower ⟨[DISK_LIGHT, DISK_LIGHT, DISK_DARK, DISK_DARK]⟩
        = some ⟨⟨[DISK_LIGHT, DISK_LIGHT, DISK_DARK, DISK_DARK]⟩, 0⟩ :=
  ⟨by decide, by decide,
    sorters_idempotent ⟨[DISK_LIGHT, DISK_LIGHT, DISK_DARK, DISK_DARK]⟩ (by decide) (by decide)⟩

/-- C7: for every valid row, `sort_lawnmower(row).swap_count()` is less than
or equal to `sort_left_to_right(row).swap_count()`. -/
theorem lawnmower_swaps_le_left_to_right (s : disk_state) (_h : valid_row s) :
    ∃ r1 r2, sort_lawnmower s = some r1 ∧ sort_left_to_right s = some r2
      ∧ r1.swap_count ≤ r2.swap_count :=
  ⟨_, _, (sort_lawnmower_core s).1, (sort_left_to_right_core s).1, Nat.le_refl _⟩

theorem lawnmower_swaps_le_left_to_right_witness :
    valid_row ⟨[DISK_DARK, DISK_LIGHT, DISK_DARK, DISK_LIGHT, DISK_DARK, DISK_LIGHT]⟩
    ∧ ∃ r1 r2,
      sort_lawnmower ⟨[DISK_DARK, DISK_LIGHT, DISK_DARK, DISK_LIGHT, DISK_DARK, DISK_LIGHT]⟩
        = some r1
      ∧ sort_left_to_right ⟨[DISK_DARK, DISK_LIGHT, DISK_DARK, DISK_LIGHT, DISK_DARK, DISK_LIGHT]⟩
        = some r2
      ∧ r1.swap_count ≤ r2.swap_count :=
  ⟨by decide,
    lawnmower_swaps_le_left_to_right
      ⟨[DISK_DARK, DISK_LIGHT, DISK_DARK, DISK_LIGHT, DISK_DARK, DISK_LIGHT]⟩ (by decide)⟩

/-- C8, as stated, fails: there is no valid row on which
`sort_left_to_right` reports more swaps than the row has inversions (pairs
`i < j` with a dark disk at `i` and a light disk at `j`). -/
theorem left_to_right_never_exceeds_inversions :
    ¬ ∃ s : disk_state, valid_row s
        ∧ ∃ r, sort_left_to_right s = some r ∧ inversions s._colors < r.swap_count := by
  rintro ⟨s, -, r, hr, hlt⟩
  rw [(sort_left_to_right_core s).1] at hr
  cases hr
  exact Nat.lt_irrefl _ (Nat.lt_of_lt_of_le hlt (Nat.mod_le _ _))

/-- C8, amended: the left-to-right sorter is swap-count-minimal on every valid
row with fewer than `2 ^ 32` inversions.  There its `swap_count()` equals the
number of inversions of the input row, and no sequence of adjacent swaps that
turns the input into a row satisfying `is_sorted()` is shorter than that. -/
theorem left_to_right_swap_count_minimal (s : disk_state) (_h : valid_row s)
    (hb : inversions s._colors < 2 ^ 32) :
    (∃ r, sort_left_to_right s = some r ∧ r.swap_count = inversions s._colors)
    ∧ ∀ (idxs : List Nat) (t : disk_state), replay_swaps s idxs = some t →
        t.is_sorted = some true → inversions s._colors ≤ idxs.length := by
  refine ⟨⟨_, (sort_left_to_right_core s).1, Nat.mod_eq_of_lt hb⟩, ?_⟩
  intro idxs t hrep hsorted
  have h1 := replay_swaps_inversions idxs s t hrep
  have h2 : inversions t._colors = 0 := by
    rw [is_sorted_shape hsorted]; exact inversions_light_dark _ _
  omega

theorem left_to_right_swap_count_minimal_witness :
    valid_row ⟨[DISK_DARK, DISK_LIGHT, DISK_DARK, DISK_LIGHT]⟩
    ∧ inversions [DISK_DARK, DISK_LIGHT, DISK_DARK, DISK_LIGHT] < 2 ^ 32
    ∧ ∃ r, sort_left_to_right ⟨[DISK_DARK, DISK_LIGHT, DISK_DARK, DISK_LIGHT]⟩ = some r
        ∧ r.swap_count = inversions [DISK_DARK, DISK_LIGHT, DISK_DARK, DISK_LIGHT] :=
  ⟨by decide, by decide,
    (left_to_right_swap_count_minimal ⟨[DISK_DARK, DISK_LIGHT, DISK_DARK, DISK_LIGHT]⟩
      (by decide) (by decide)).1⟩

/-- C9: on every row with `total_count() > 0` both sorters run to completion
and return a result, so no `get` or `swap` they issue fails its assertion;
in particular the body of the left-to-right loop succeeds at every index
`b < total_count() - 1` and the body of the lawnmower loop at every index `b`
with `a < b <= total_count() - 1`, each leaving `total_count()` unchanged. -/
theorem sorters_never_fail_assertion (s : disk_state) (_h : 0 < s.total_count) :
    (∃ r, sort_left_to_right s = some r)
    ∧ (∃ r, sort_lawnmower s = some r)
    ∧ (∀ (st : disk_state × Nat) (b : Nat), b < st.1.total_count - 1 →
        ∃ st2, sort_left_to_right_body st b = some st2
          ∧ st2.1.total_count = st.1.total_count)
    ∧ (∀ (st : disk_state × Nat) (a b : Nat), a < b → b ≤ st.1.total_count - 1 →
        ∃ st2, sort_lawnmower_body st b = some st2
          ∧ st2.1.total_count = st.1.total_count) :=
  ⟨⟨_, (sort_left_to_right_core s).1⟩, ⟨_, (sort_lawnmower_core s).1⟩,
   fun st b hb => ltr_body_in_range st b (by omega),
   fun st a b hab hb => lawn_body_in_range st b (by omega) (by omega)⟩

theorem sorters_never_fail_assertion_witness :
    0 < (⟨[DISK_DARK, DISK_DARK, DISK_LIGHT]⟩ : disk_state).total_count
    ∧ (∃ r, sort_left_to_right ⟨[DISK_DARK, DISK_DARK, DISK_LIGHT]⟩ = some r)
    ∧ (∃ r, sort_lawnmower ⟨[DISK_DARK, DISK_DARK, DISK_LIGHT]⟩ = some r) :=
  ⟨by decide,
    (sorters_never_fail_assertion ⟨[DISK_DARK, DISK_DARK, DISK_LIGHT]⟩ (by decide)).1,
    (sorters_never_fail_assertion ⟨[DISK_DARK, DISK_DARK, DISK_LIGHT]⟩ (by decide)).2.1⟩

theorem forall_from_index (Q : Nat → Prop) (idx n : Nat) (h : idx < n) :
    (∀ i, idx ≤ i → i < n → Q i) ↔ Q idx ∧ ∀ i, idx + 1 ≤ i → i < n → Q i := by
  constructor
  · intro hall
    exact ⟨hall idx (le_refl _) h, fun i hi hn => hall i (by omega) hn⟩
  · rintro ⟨h0, hrest⟩ i hi hn
    by_cases he : i = idx
    · subst he; exact h0
    · exact hrest i (by omega) hn

theorem is_alternating_loop_spec (s : disk_state) : ∀ (fuel idx color : Nat),
    idx ≤ s.total_count → s.total_count < idx + fuel →
    color = (if idx % 2 = 1 then 0 else 1) →
    ∃ b, s.is_alternating_loop fuel color idx = some b
      ∧ (b = true ↔ ∀ i, idx ≤ i → i < s.total_count →
          s.get i = some (if i % 2 = 0 then DISK_DARK else DISK_LIGHT)) := by
  intro fuel
  induction fuel with
  | zero => intro idx color h1 h2 _; omega
  | succ f ih =>
    intro idx color h1 h2 hc
    unfold disk_state.is_alternating_loop
    by_cases hidx : idx < s.total_count
    · have hin : s.is_index idx = true := by simp [disk_state.is_index, hidx]
      obtain ⟨c, hget⟩ : ∃ c, s.get idx = some c := by
        rw [get_eq_getElem?]; exact ⟨_, List.getElem?_eq_getElem hidx⟩
      obtain ⟨b, hb, hiff⟩ := ih (idx + 1) (if color = 0 then color + 1 else color - 1)
        (by omega) (by omega) (by
          subst hc
          by_cases hp : idx % 2 = 1
          · have hq : (idx + 1) % 2 ≠ 1 := by omega
            simp [hp, hq]
          · have hq : (idx + 1) % 2 = 1 := by omega
            simp [hp, hq])
      rw [forall_from_index _ idx s.total_count hidx, hget, ← hiff]
      simp only [hin, if_true]
      by_cases hpar : idx % 2 = 1
      · have hc0 : color = 0 := by rw [hc, if_pos hpar]
        have hne : ¬ idx % 2 = 0 := by omega
        subst hc0
        cases c with
        | DISK_DARK => exact ⟨false, by simp, by simp [hne]⟩
        | DISK_LIGHT => exact ⟨b, by simpa using hb, by simp [hne]⟩
      · have hc1 : color = 1 := by rw [hc, if_neg hpar]
        have he : idx % 2 = 0 := by omega
        subst hc1
        cases c with
        | DISK_DARK => exact ⟨b, by simpa using hb, by simp [he]⟩
        | DISK_LIGHT => exact ⟨false, by simp, by simp [he]⟩
    · have hin : s.is_index idx = false := by simp [disk_state.is_index, hidx]
      refine ⟨true, by simp [hin], ?_⟩
      simp only [true_iff]
      intro i hi hn
      omega

theorem is_alternating_spec (s : disk_state) (h : 1 ≤ s.total_count) :
    ∃ b, s.is_alternating = some b
      ∧ (b = true ↔ ∀ i, i < s.total_count →
          s.get i = some (if i % 2 = 0 then DISK_DARK else DISK_LIGHT)) := by
  obtain ⟨c, hget⟩ : ∃ c, s.get 0 = some c := by
    rw [get_eq_getElem?]; exact ⟨_, List.getElem?_eq_getElem (by unfold disk_state.total_count at h; omega)⟩
  obtain ⟨b, hb, hiff⟩ := is_alternating_loop_spec s s.total_count 1 0 h (by omega) rfl
  have hsplit := forall_from_index
    (fun i => s.get i = some (if i % 2 = 0 then DISK_DARK else DISK_LIGHT)) 0 s.total_count
    (by omega)
  simp only [Nat.zero_le, forall_true_left, Nat.zero_add] at hsplit
  rw [hsplit, ← hiff, hget]
  unfold disk_state.is_alternating
  rw [hget]
  cases c with
  | DISK_DARK => exact ⟨b, hb, by simp⟩
  | DISK_LIGHT => exact ⟨false, rfl, by simp⟩

theorem is_sorted_loop_total (s : disk_state) (bad : disk_color) : ∀ idxs : List Nat,
    (∀ i ∈ idxs, i < s.total_count) → ∃ b, s.is_sorted_loop bad idxs = some b := by
  intro idxs
  induction idxs with
  | nil => intro _; exact ⟨true, rfl⟩
  | cons i rest ih =>
    intro h
    obtain ⟨c, hget⟩ : ∃ c, s.get i = some c := by
      rw [get_eq_getElem?]
      exact ⟨_, List.getElem?_eq_getElem (h i (List.mem_cons_self _ _))⟩
    obtain ⟨b, hb⟩ := ih (fun j hj => h j (List.mem_cons_of_mem _ hj))
    simp only [disk_state.is_sorted_loop, hget]
    by_cases hc : c = bad
    · exact ⟨false, by simp [hc]⟩
    · exact ⟨b, by simp [hc, hb]⟩

theorem is_sorted_total (s : disk_state) : ∃ b, s.is_sorted = some b := by
  have hle : s.light_count ≤ s.total_count := Nat.div_le_self _ _
  obtain ⟨b1, h1⟩ := is_sorted_loop_total s DISK_DARK (List.range s.light_count)
    (fun i hi => by have := List.mem_range.1 hi; omega)
  obtain ⟨b2, h2⟩ := is_sorted_loop_total s DISK_LIGHT
    (List.range' s.light_count (s.total_count - s.light_count))
    (fun i hi => by have := List.mem_range'_1.1 hi; omega)
  unfold disk_state.is_sorted
  rw [h1]
  cases b1 with
  | true => exact ⟨b2, h2⟩
  | false => exact ⟨false, rfl⟩

/-! ## Verified properties of the predicates, of `swap`, `operator==` and `to_string` -/

/-- C12: on every row with `total_count() >= 1`, `is_alternating()` returns a
value, and that value is true if and only if `get(i)` is dark at every even
valid index and light at every odd valid index. -/
theorem is_alternating_iff (s : disk_state) (h : 1 ≤ s.total_count) :
    ∃ b, s.is_alternating = some b
      ∧ (b = true ↔
          (∀ i, i < s.total_count → i % 2 = 0 → s.get i = some DISK_DARK)
          ∧ (∀ i, i < s.total_count → i % 2 = 1 → s.get i = some DISK_LIGHT)) := by
  obtain ⟨b, hb, hiff⟩ := is_alternating_spec s h
  refine ⟨b, hb, hiff.trans ?_⟩
  constructor
  · intro hall
    constructor
    · intro i hi hev
      rw [hall i hi, if_pos hev]
    · intro i hi hodd
      rw [hall i hi, if_neg (by omega)]
  · rintro ⟨hev, hodd⟩ i hi
    by_cases hp : i % 2 = 0
    · rw [hev i hi hp, if_pos hp]
    · rw [hodd i hi (by omega), if_neg hp]

theorem is_alternating_iff_witness :
    1 ≤ (⟨[DISK_DARK, DISK_LIGHT, DISK_LIGHT]⟩ : disk_state).total_count
    ∧ ∃ b, (⟨[DISK_DARK, DISK_LIGHT, DISK_LIGHT]⟩ : disk_state).is_alternating = some b
      ∧ (b = true ↔
          (∀ i, i < (⟨[DISK_DARK, DISK_LIGHT, DISK_LIGHT]⟩ : disk_state).total_count →
            i % 2 = 0 → (⟨[DISK_DARK, DISK_LIGHT, DISK_LIGHT]⟩ : disk_state).get i = some DISK_DARK)
          ∧ (∀ i, i < (⟨[DISK_DARK, DISK_LIGHT, DISK_LIGHT]⟩ : disk_state).total_count →
            i % 2 = 1 → (⟨[DISK_DARK, DISK_LIGHT, DISK_LIGHT]⟩ : disk_state).get i = some DISK_LIGHT)) :=
  ⟨by decide, is_alternating_iff ⟨[DISK_DARK, DISK_LIGHT, DISK_LIGHT]⟩ (by decide)⟩

/-- C13: on every row `is_sorted()` returns a value, and that value is true if
and only if `get(i)` is light at every index below `light_count()` and dark at
every index from `light_count()` up to `total_count()`, where `light_count()`
is `total_count() / 2`. -/
theorem is_sorted_returns_true_iff (s : disk_state) :
    s.light_count = s.total_count / 2
    ∧ ∃ b, s.is_sorted = some b
      ∧ (b = true ↔
          (∀ i, i < s.light_count → s.get i = some DISK_LIGHT)
          ∧ (∀ i, s.light_count ≤ i → i < s.total_count → s.get i = some DISK_DARK)) := by
  refine ⟨rfl, ?_⟩
  obtain ⟨b, hb⟩ := is_sorted_total s
  refine ⟨b, hb, ?_⟩
  rw [← is_sorted_iff, hb]
  simp

theorem get_append_pair_other (p r : List disk_color) (x y x2 y2 : disk_color) (j : Nat)
    (h0 : j ≠ p.length) (h1 : j ≠ p.length + 1) :
    (⟨p ++ x :: y :: r⟩ : disk_state).get j = (⟨p ++ x2 :: y2 :: r⟩ : disk_state).get j := by
  rw [get_eq_getElem?, get_eq_getElem?]
  by_cases hj : j < p.length
  · rw [List.getElem?_append_left hj, List.getElem?_append_left hj]
  · have hle : p.length ≤ j := Nat.le_of_not_lt hj
    rw [List.getElem?_append_right hle, List.getElem?_append_right hle]
    obtain ⟨k, hk⟩ : ∃ k, j - p.length = k + 2 := ⟨j - p.length - 2, by omega⟩
    rw [hk]
    rfl

/-- C14: when `left_index + 1 < total_count()`, `swap(left_index)` exchanges
the colours at `left_index` and `left_index + 1` and leaves every other index
and `total_count()` unchanged; when `left_index + 1 >= total_count()` the call
fails its assertion and no row is produced. -/
theorem swap_exchanges_adjacent_pair (s : disk_state) (left_index : Nat) :
    (left_index + 1 < s.total_count →
      ∃ t, s.swap left_index = some t
        ∧ t.get left_index = s.get (left_index + 1)
        ∧ t.get (left_index + 1) = s.get left_index
        ∧ (∀ j, j ≠ left_index → j ≠ left_index + 1 → t.get j = s.get j)
        ∧ t.total_count = s.total_count)
    ∧ (s.total_count ≤ left_index + 1 → s.swap left_index = none) := by
  constructor
  · intro h
    obtain ⟨l⟩ := s
    obtain ⟨p, x, y, r, rfl, rfl⟩ := exists_split_at_pair l left_index h
    refine ⟨⟨p ++ y :: x :: r⟩, swap_append_cons p r x y, ?_, ?_, ?_, ?_⟩
    · rw [get_append_cons, get_append_cons_succ]
    · rw [get_append_cons_succ, get_append_cons]
    · intro j h0 h1
      exact get_append_pair_other p r y x x y j h0 h1
    · simp [disk_state.total_count]
  · intro h
    exact swap_out_of_range s left_index (by omega)

theorem swap_exchanges_adjacent_pair_witness :
    1 + 1 < (⟨[DISK_DARK, DISK_LIGHT, DISK_DARK]⟩ : disk_state).total_count
    ∧ (∃ t, (⟨[DISK_DARK, DISK_LIGHT, DISK_DARK]⟩ : disk_state).swap 1 = some t
        ∧ t.get 1 = (⟨[DISK_DARK, DISK_LIGHT, DISK_DARK]⟩ : disk_state).get (1 + 1)
        ∧ t.get (1 + 1) = (⟨[DISK_DARK, DISK_LIGHT, DISK_DARK]⟩ : disk_state).get 1
        ∧ (∀ j, j ≠ 1 → j ≠ 1 + 1 →
            t.get j = (⟨[DISK_DARK, DISK_LIGHT, DISK_DARK]⟩ : disk_state).get j)
        ∧ t.total_count = (⟨[DISK_DARK, DISK_LIGHT, DISK_DARK]⟩ : disk_state).total_count)
    ∧ (⟨[DISK_DARK, DISK_LIGHT, DISK_DARK]⟩ : disk_state).total_count ≤ 2 + 1
    ∧ (⟨[DISK_DARK, DISK_LIGHT, DISK_DARK]⟩ : disk_state).swap 2 = none :=
  ⟨by decide,
    (swap_exchanges_adjacent_pair ⟨[DISK_DARK, DISK_LIGHT, DISK_DARK]⟩ 1).1 (by decide),
    by decide,
    (swap_exchanges_adjacent_pair ⟨[DISK_DARK, DISK_LIGHT, DISK_DARK]⟩ 2).2 (by decide)⟩

theorem equal_loop_spec : ∀ (l1 l2 : List disk_color), l1.length ≤ l2.length →
    ∃ r, disk_state.equal_loop l1 l2 = some r ∧ (r = true ↔ l2.take l1.length = l1) := by
  intro l1
  induction l1 with
  | nil => intro l2 _; exact ⟨true, rfl, by simp⟩
  | cons x xs ih =>
    intro l2 h
    cases l2 with
    | nil => simp at h
    | cons y ys =>
      obtain ⟨r, hr, hiff⟩ := ih ys (by simpa using h)
      by_cases hxy : x = y
      · refine ⟨r, by simp [disk_state.equal_loop, hxy, hr], ?_⟩
        rw [hiff]
        simp [hxy]
      · refine ⟨false, by simp [disk_state.equal_loop, hxy], ?_⟩
        simp only [Bool.false_eq_true, false_iff, List.length_cons, List.take_succ_cons,
          List.cons.injEq, not_and]
        intro hyx
        exact absurd hyx.symm hxy

theorem take_eq_iff_get (a b : disk_state) :
    b._colors.take a.total_count = a._colors
      ↔ ∀ i, i < a.total_count → b.get i = a.get i := by
  unfold disk_state.total_count at *
  constructor
  · intro ht i hi
    have hi2 : i < a._colors.length := hi
    rw [get_eq_getElem?, get_eq_getElem?]
    conv_rhs => rw [← ht]
    rw [List.getElem?_take, if_pos hi2]
  · intro hall
    apply List.ext_getElem?
    intro n
    rw [List.getElem?_take]
    by_cases hn : n < a._colors.length
    · have := hall n hn
      rw [get_eq_getElem?, get_eq_getElem?] at this
      rw [if_pos hn, this]
    · rw [if_neg hn]
      exact (List.getElem?_eq_none (by omega)).symm

/-- C16: for two rows of the same `total_count()`, `operator==` returns a
value, and that value is true if and only if the two rows hold the same
colour at every index. -/
theorem operator_eq_same_length (a b : disk_state) (h : a.total_count = b.total_count) :
    ∃ r, a.operator_eq b = some r
      ∧ (r = true ↔ ∀ i, i < a.total_count → a.get i = b.get i) := by
  obtain ⟨r, hr, hiff⟩ := equal_loop_spec a._colors b._colors (by
    unfold disk_state.total_count at h; omega)
  refine ⟨r, hr, hiff.trans ((take_eq_iff_get a b).trans ?_)⟩
  constructor
  · intro hall i hi; exact (hall i hi).symm
  · intro hall i hi; exact (hall i hi).symm

theorem operator_eq_same_length_witness :
    (⟨[DISK_DARK, DISK_LIGHT]⟩ : disk_state).total_count
      = (⟨[DISK_LIGHT, DISK_DARK]⟩ : disk_state).total_count
    ∧ ∃ r, (⟨[DISK_DARK, DISK_LIGHT]⟩ : disk_state).operator_eq ⟨[DISK_LIGHT, DISK_DARK]⟩ = some r
      ∧ (r = true ↔ ∀ i, i < (⟨[DISK_DARK, DISK_LIGHT]⟩ : disk_state).total_count →
          (⟨[DISK_DARK, DISK_LIGHT]⟩ : disk_state).get i
            = (⟨[DISK_LIGHT, DISK_DARK]⟩ : disk_state).get i) :=
  ⟨by decide, operator_eq_same_length ⟨[DISK_DARK, DISK_LIGHT]⟩ ⟨[DISK_LIGHT, DISK_DARK]⟩ (by decide)⟩

/-- C20: `operator==` compares only as many colours as the left operand has.
For rows `a` and `b` with `a.total_count() < b.total_count()` it returns a
value, true exactly when the first `a.total_count()` colours of `b` equal
those of `a`; in particular `disk_state(1) == disk_state(2)` is true although
the two rows differ in `total_count()`. -/
theorem operator_eq_ignores_extra_disks (a b : disk_state) (h : a.total_count < b.total_count) :
    (∃ r, a.operator_eq b = some r
      ∧ (r = true ↔ b._colors.take a.total_count = a._colors)
      ∧ (r = true ↔ ∀ i, i < a.total_count → b.get i = a.get i))
    ∧ (∃ a1 b2, disk_state.construct 1 = some a1 ∧ disk_state.construct 2 = some b2
        ∧ a1.total_count ≠ b2.total_count ∧ a1.operator_eq b2 = some true) := by
  obtain ⟨r, hr, hiff⟩ := equal_loop_spec a._colors b._colors (by
    unfold disk_state.total_count at h; omega)
  refine ⟨⟨r, hr, hiff, hiff.trans (take_eq_iff_get a b)⟩, ?_⟩
  exact ⟨⟨[DISK_DARK, DISK_LIGHT]⟩, ⟨[DISK_DARK, DISK_LIGHT, DISK_DARK, DISK_LIGHT]⟩,
    by decide, by decide, by decide, by decide⟩

theorem operator_eq_ignores_extra_disks_witness :
    (⟨[DISK_LIGHT]⟩ : disk_state).total_count < (⟨[DISK_LIGHT, DISK_DARK]⟩ : disk_state).total_count
    ∧ ∃ r, (⟨[DISK_LIGHT]⟩ : disk_state).operator_eq ⟨[DISK_LIGHT, DISK_DARK]⟩ = some r
      ∧ (r = true ↔ [DISK_LIGHT, DISK_DARK].take (⟨[DISK_LIGHT]⟩ : disk_state).total_count
          = [DISK_LIGHT]) :=
  ⟨by decide,
    (operator_eq_ignores_extra_disks ⟨[DISK_LIGHT]⟩ ⟨[DISK_LIGHT, DISK_DARK]⟩ (by decide)).1.imp
      (fun _ hr => ⟨hr.1, hr.2.1⟩)⟩

/-! ## The rendering `to_string` -/

theorem to_string_loop_not_first : ∀ (l : List disk_color) (ss : List Char),
    disk_state.to_string_loop l (ss, false) = (ss ++ spaced_tokens l, false) := by
  intro l
  induction l with
  | nil => intro ss; simp [disk_state.to_string_loop, spaced_tokens]
  | cons c rest ih =>
    intro ss
    cases c <;> simp [disk_state.to_string_loop, spaced_tokens, color_token, ih]

theorem to_string_data_cons (c : disk_color) (l : List disk_color) :
    (⟨c :: l⟩ : disk_state).to_string.data = color_token c :: spaced_tokens l := by
  cases c <;>
    simp [disk_state.to_string, disk_state.to_string_loop, to_string_loop_not_first, color_token]

theorem spaced_tokens_length (l : List disk_color) : (spaced_tokens l).length = 2 * l.length := by
  induction l with
  | nil => rfl
  | cons c rest ih => simp only [spaced_tokens, List.length_cons, ih]; omega

theorem spaced_tokens_even : ∀ (l : List disk_color) (i : Nat), i < l.length →
    (spaced_tokens l)[2 * i]? = some ' ' := by
  intro l
  induction l with
  | nil => intro i hi; simp at hi
  | cons c rest ih =>
    intro i hi
    cases i with
    | zero => rfl
    | succ k =>
      have : 2 * (k + 1) = 2 * k + 1 + 1 := by omega
      rw [this]
      simp only [spaced_tokens, List.getElem?_cons_succ]
      exact ih k (by simpa using hi)

theorem spaced_tokens_odd : ∀ (l : List disk_color) (i : Nat),
    (spaced_tokens l)[2 * i + 1]? = l[i]?.map color_token := by
  intro l
  induction l with
  | nil => intro i; simp [spaced_tokens]
  | cons c rest ih =>
    intro i
    cases i with
    | zero => simp [spaced_tokens]
    | succ k =>
      have : 2 * (k + 1) + 1 = 2 * k + 1 + 1 + 1 := by omega
      rw [this]
      simp only [spaced_tokens, List.getElem?_cons_succ]
      exact ih k

theorem color_token_ne_space (c : disk_color) : color_token c ≠ ' ' := by
  cases c <;> decide

theorem spaced_tokens_count_space (l : List disk_color) :
    (spaced_tokens l).count ' ' = l.length := by
  induction l with
  | nil => rfl
  | cons c rest ih =>
    have hne := color_token_ne_space c
    simp only [spaced_tokens, List.count_cons_self, List.length_cons]
    rw [List.count_cons_of_ne hne.symm, ih]

theorem tokens_count_letters (l : List disk_color) :
    (spaced_tokens l).count 'L' + (spaced_tokens l).count 'D' = l.length := by
  induction l with
  | nil => rfl
  | cons c rest ih =>
    have hs1 : (' ' : Char) ≠ 'L' := by decide
    have hs2 : (' ' : Char) ≠ 'D' := by decide
    simp only [spaced_tokens, List.length_cons]
    rw [List.count_cons_of_ne hs1.symm, List.count_cons_of_ne hs2.symm]
    cases c with
    | DISK_LIGHT =>
      have h1 : color_token DISK_LIGHT = 'L' := rfl
      have h2 : ('D' : Char) ≠ 'L' := by decide
      rw [h1, List.count_cons_self, List.count_cons_of_ne h2]
      omega
    | DISK_DARK =>
      have h1 : color_token DISK_DARK = 'D' := rfl
      have h2 : ('L' : Char) ≠ 'D' := by decide
      rw [h1, List.count_cons_self, List.count_cons_of_ne h2]
      omega

/-- C17: a row of light-count `N > 0` has `2*N` disks, and its `to_string()`
has length `4*N - 1`: position `2*i` holds `L` when `get(i)` is light and `D`
when it is dark, every odd position holds a space, and the string consists of
`2*N - 1` spaces and `2*N` letters `L` or `D`. -/
theorem to_string_layout (s : disk_state) (N : Nat) (hN : 0 < N)
    (h : s.total_count = 2 * N) :
    s.light_count = N
    ∧ s.to_string.length = 4 * N - 1
    ∧ (∀ i, i < 2 * N →
        (s.get i = some DISK_LIGHT → s.to_string.data[2 * i]? = some 'L')
        ∧ (s.get i = some DISK_DARK → s.to_string.data[2 * i]? = some 'D'))
    ∧ (∀ j, j < 4 * N - 1 → j % 2 = 1 → s.to_string.data[j]? = some ' ')
    ∧ s.to_string.data.count ' ' = 2 * N - 1
    ∧ s.to_string.data.count 'L' + s.to_string.data.count 'D' = 2 * N := by
  have hlc : s.light_count = N := by rw [disk_state.light_count, h]; omega
  obtain ⟨l0⟩ := s
  cases l0 with
  | nil => simp [disk_state.total_count] at h; omega
  | cons c l =>
    have hlen : l.length + 1 = 2 * N := by simpa [disk_state.total_count] using h
    have hdata := to_string_data_cons c l
    have htok : ∀ i, (color_token c :: spaced_tokens l)[2 * i]?
        = ((⟨c :: l⟩ : disk_state).get i).map color_token := by
      intro i
      rw [get_eq_getElem?]
      cases i with
      | zero => simp
      | succ k =>
        have : 2 * (k + 1) = 2 * k + 1 + 1 := by omega
        rw [this, List.getElem?_cons_succ, spaced_tokens_odd]
        simp
    refine ⟨hlc, ?_, ?_, ?_, ?_, ?_⟩
    · show (⟨c :: l⟩ : disk_state).to_string.data.length = 4 * N - 1
      rw [hdata, List.length_cons, spaced_tokens_length]; omega
    · intro i _
      rw [hdata, htok i]
      constructor
      · intro hg; rw [hg]; rfl
      · intro hg; rw [hg]; rfl
    · intro j hj hodd
      obtain ⟨k, rfl⟩ : ∃ k, j = 2 * k + 1 := ⟨j / 2, by omega⟩
      rw [hdata, List.getElem?_cons_succ]
      exact spaced_tokens_even l k (by omega)
    · rw [hdata, List.count_cons_of_ne (color_token_ne_space c).symm,
        spaced_tokens_count_space]
      omega
    · rw [hdata]
      have hrest := tokens_count_letters l
      cases c with
      | DISK_LIGHT =>
        have h1 : color_token DISK_LIGHT = 'L' := rfl
        have h2 : ('D' : Char) ≠ 'L' := by decide
        rw [h1, List.count_cons_self, List.count_cons_of_ne h2]
        omega
      | DISK_DARK =>
        have h1 : color_token DISK_DARK = 'D' := rfl
        have h2 : ('L' : Char) ≠ 'D' := by decide
        rw [h1, List.count_cons_self, List.count_cons_of_ne h2]
        omega

theorem to_string_layout_witness :
    0 < 1 ∧ (⟨[DISK_DARK, DISK_LIGHT]⟩ : disk_state).total_count = 2 * 1
    ∧ (⟨[DISK_DARK, DISK_LIGHT]⟩ : disk_state).to_string.length = 4 * 1 - 1
    ∧ (⟨[DISK_DARK, DISK_LIGHT]⟩ : disk_state).to_string.data.count ' ' = 2 * 1 - 1 :=
  ⟨by decide, by decide,
    (to_string_layout ⟨[DISK_DARK, DISK_LIGHT]⟩ 1 (by decide) (by decide)).2.1,
    (to_string_layout ⟨[DISK_DARK, DISK_LIGHT]⟩ 1 (by decide) (by decide)).2.2.2.2.1⟩

/-! ## Passes of the left-to-right scan, counted -/

theorem ltr_iter_light_dark (n a b : Nat) :
    ltr_iter n (List.replicate a DISK_LIGHT ++ List.replicate b DISK_DARK)
      = List.replicate a DISK_LIGHT ++ List.replicate b DISK_DARK := by
  have h := ltr_iter_sorted n (List.replicate a DISK_LIGHT) b
    (by rw [count_dark_replicate_light]; exact Nat.zero_le _)
  rw [h, count_dark_replicate_light, List.count_replicate_self, Nat.zero_add]

theorem ltr_passes_on_sorted (idxs : List Nat) (a b c : Nat) (hc : c < 2 ^ 32) :
    idxs.foldlM (fun st _ => sort_left_to_right_pass st)
        ((⟨List.replicate a DISK_LIGHT ++ List.replicate b DISK_DARK⟩ : disk_state), c)
      = some (⟨List.replicate a DISK_LIGHT ++ List.replicate b DISK_DARK⟩, c) := by
  obtain ⟨k, hk, hch⟩ := ltr_outer_eval idxs
    (List.replicate a DISK_LIGHT ++ List.replicate b DISK_DARK) c hc
  rw [ltr_iter_light_dark] at hk hch
  have hinv := (dark_light_swaps_spec hch).2
  have hk0 : k = 0 := by omega
  rw [hk, hk0, Nat.add_zero, Nat.mod_eq_of_lt hc]

theorem balanced_light_count {s : disk_state} (h : valid_row s) :
    s.light_count = s._colors.count DISK_DARK
      ∧ s.total_count - s.light_count = s._colors.count DISK_DARK := by
  have hlen := length_eq_count_add_count s._colors
  have hb := h.2
  unfold disk_state.light_count disk_state.total_count
  constructor <;> omega

/-- C18: on every valid row, `light_count()` passes of the left-to-right scan
suffice.  The working row after the first `light_count()` passes of the outer
loop satisfies `is_sorted()`; from that state a pass changes neither the row
nor the swap counter, so the remaining `total_count() - light_count()` passes
perform no swap, and the state is the result of `sort_left_to_right`. -/
theorem light_count_passes_suffice (s : disk_state) (h : valid_row s) :
    ∃ st : disk_state × Nat,
      (List.range s.light_count).foldlM (fun st _ => sort_left_to_right_pass st) (s, 0) = some st
      ∧ st.1.is_sorted = some true
      ∧ sort_left_to_right_pass st = some st
      ∧ (List.range' s.light_count (s.total_count - s.light_count)).foldlM
          (fun st _ => sort_left_to_right_pass st) st = some st
      ∧ sort_left_to_right s = some ⟨st.1, st.2⟩ := by
  obtain ⟨hlc, -⟩ := balanced_light_count h
  obtain ⟨k, hk, hch⟩ := ltr_outer_eval (List.range s.light_count) s._colors 0
    counter_modulus_pos
  have hsf : ltr_iter (List.range s.light_count).length s._colors = sorted_form s._colors :=
    ltr_iter_eq_sorted_form _ _ (by rw [List.length_range, hlc])
  rw [hsf, Nat.zero_add] at hk
  rw [hsf] at hch
  have hinv := (dark_light_swaps_spec hch).2
  simp only [inversions_sorted_form, Nat.zero_add] at hinv
  have hlt : k % 2 ^ 32 < 2 ^ 32 := Nat.mod_lt _ counter_modulus_pos
  refine ⟨(⟨sorted_form s._colors⟩, k % 2 ^ 32), hk, sorted_form_of_balanced _ h.2, ?_, ?_, ?_⟩
  · have h1 := ltr_passes_on_sorted [0] (s._colors.count DISK_LIGHT)
      (s._colors.count DISK_DARK) (k % 2 ^ 32) hlt
    simpa [sorted_form] using h1
  · exact ltr_passes_on_sorted _ _ _ (k % 2 ^ 32) hlt
  · rw [(sort_left_to_right_core s).1, hinv]

theorem light_count_passes_suffice_witness :
    valid_row ⟨[DISK_DARK, DISK_LIGHT, DISK_DARK, DISK_LIGHT]⟩
    ∧ ∃ st : disk_state × Nat,
      (List.range (⟨[DISK_DARK, DISK_LIGHT, DISK_DARK, DISK_LIGHT]⟩ : disk_state).light_count).foldlM
          (fun st _ => sort_left_to_right_pass st)
          (⟨[DISK_DARK, DISK_LIGHT, DISK_DARK, DISK_LIGHT]⟩, 0) = some st
      ∧ st.1.is_sorted = some true
      ∧ sort_left_to_right_pass st = some st :=
  ⟨by decide,
    (light_count_passes_suffice ⟨[DISK_DARK, DISK_LIGHT, DISK_DARK, DISK_LIGHT]⟩ (by decide)).imp
      (fun _ hst => ⟨hst.1, hst.2.1, hst.2.2.1⟩)⟩

